import Mathlib

/-!
Verification development for a region quadtree over axis-aligned boxes.
The definitions below are a shallow embedding of the two source headers
(Box.h and Quadtree.h): geometry primitives, the node structure, and the
five algorithms (add, remove with merge, range query, all-intersections
report, nearest-neighbor search).  Coordinates are taken in an arbitrary
linear ordered field; the square root used by the distance metric is
passed explicitly (the source instantiates it with the numeric type's
square root).
-/

namespace Quadtree

/-- Embeds Box from Box.h: a rectangle given by left, top, width, height. -/
structure Box (F : Type) where
  left : F
  top : F
  width : F
  height : F
deriving DecidableEq, Repr

variable {F : Type} [LinearOrderedField F]

/-- Embeds Box::getRight. -/
def Box.getRight (b : Box F) : F := b.left + b.width

/-- Embeds Box::getBottom. -/
def Box.getBottom (b : Box F) : F := b.top + b.height

/-- Embeds the x coordinate of Box::getCenter. -/
def Box.centerX (b : Box F) : F := b.left + b.width / 2

/-- Embeds the y coordinate of Box::getCenter. -/
def Box.centerY (b : Box F) : F := b.top + b.height / 2

/-- Embeds Box::contains: non-strict inequalities on all four sides. -/
def Box.contains (a b : Box F) : Prop :=
  a.left ≤ b.left ∧ b.getRight ≤ a.getRight ∧
    a.top ≤ b.top ∧ b.getBottom ≤ a.getBottom

instance (a b : Box F) : Decidable (a.contains b) := by
  unfold Box.contains; exact inferInstance

/-- Embeds Box::intersects: negation of (non-strict) separation, so boxes
whose edges merely touch do not intersect. -/
def Box.intersects (a b : Box F) : Prop :=
  ¬ (b.getRight ≤ a.left ∨ a.getRight ≤ b.left ∨
      b.getBottom ≤ a.top ∨ a.getBottom ≤ b.top)

instance (a b : Box F) : Decidable (a.intersects b) := by
  unfold Box.intersects; exact inferInstance

/-- Embeds the free function distance(a, b) of Box.h: the nine-region
case analysis, with the square-root operation passed explicitly (the
source uses the numeric type's sqrt on the diagonal cases). -/
def distance (sqrt : F → F) (a b : Box F) : F :=
  let al := a.left
  let ar := a.left + a.width
  let atop := a.top
  let ab := a.top + a.height
  let bl := b.left
  let br := b.left + b.width
  let btop := b.top
  let bb := b.top + b.height
  if ar < bl ∧ ab < btop then
    sqrt ((bl - ar) * (bl - ar) + (btop - ab) * (btop - ab))
  else if al > br ∧ ab < btop then
    sqrt ((al - br) * (al - br) + (btop - ab) * (btop - ab))
  else if al > br ∧ atop > bb then
    sqrt ((al - br) * (al - br) + (atop - bb) * (atop - bb))
  else if ar < bl ∧ atop > bb then
    sqrt ((bl - ar) * (bl - ar) + (atop - bb) * (atop - bb))
  else if ar < bl then bl - ar
  else if ab < btop then btop - ab
  else if al > br then al - br
  else if atop > bb then atop - bb
  else 0

/-- Embeds the Node structure of Quadtree.h.  The source keeps an array of
four child pointers that are all null (leaf) or all non-null (interior);
split creates all four and tryMerge destroys all four, so the embedding
uses a constructor for each of the two shapes. -/
inductive Node (T : Type) : Type where
  | leaf (values : List T) : Node T
  | inner (c0 c1 c2 c3 : Node T) (values : List T) : Node T
deriving DecidableEq

variable {T : Type}

/-- Bucket of values stored directly in a node. -/
def Node.values : Node T → List T
  | .leaf vs => vs
  | .inner _ _ _ _ vs => vs

/-- Embeds Quadtree::isLeaf (first child pointer is null). -/
def Node.isLeaf : Node T → Bool
  | .leaf _ => true
  | .inner _ _ _ _ _ => false

/-- Flattens a subtree to all values it stores, node bucket first and then
the four children in order. -/
def Node.allValues : Node T → List T
  | .leaf vs => vs
  | .inner c0 c1 c2 c3 vs =>
      vs ++ (c0.allValues ++ c1.allValues ++ c2.allValues ++ c3.allValues)

/-- Embeds Quadtree::Threshold. -/
def Threshold : ℕ := 16

/-- Embeds Quadtree::MaxDepth. -/
def MaxDepth : ℕ := 8

/-- Embeds Quadtree::computeBox: region of child i of a node with the
given region (0 = NW, 1 = NE, 2 = SW, 3 = SE). -/
def computeBox (box : Box F) (i : Fin 4) : Box F :=
  let cw := box.width / 2
  let ch := box.height / 2
  match i with
  | ⟨0, _⟩ => ⟨box.left, box.top, cw, ch⟩
  | ⟨1, _⟩ => ⟨box.left + cw, box.top, cw, ch⟩
  | ⟨2, _⟩ => ⟨box.left, box.top + ch, cw, ch⟩
  | ⟨3, _⟩ => ⟨box.left + cw, box.top + ch, cw, ch⟩
  | ⟨n + 4, h⟩ => absurd h (by omega)

/-- Embeds Quadtree::getQuadrant; the source's -1 return value is none. -/
def getQuadrant (nodeBox valueBox : Box F) : Option (Fin 4) :=
  if valueBox.getRight < nodeBox.centerX then
    if valueBox.getBottom < nodeBox.centerY then some 0
    else if nodeBox.centerY ≤ valueBox.top then some 2
    else none
  else if nodeBox.centerX ≤ valueBox.left then
    if valueBox.getBottom < nodeBox.centerY then some 1
    else if nodeBox.centerY ≤ valueBox.top then some 3
    else none
  else none

variable (getBox : T → Box F)

/-- Embeds Quadtree::split applied to a leaf holding the given bucket:
values with a definite quadrant go to the corresponding fresh child (in
bucket order), the rest stay in the node. -/
def split (box : Box F) (vs : List T) : Node T :=
  Node.inner
    (.leaf (vs.filter fun v => decide (getQuadrant box (getBox v) = some 0)))
    (.leaf (vs.filter fun v => decide (getQuadrant box (getBox v) = some 1)))
    (.leaf (vs.filter fun v => decide (getQuadrant box (getBox v) = some 2)))
    (.leaf (vs.filter fun v => decide (getQuadrant box (getBox v) = some 3)))
    (vs.filter fun v => decide (getQuadrant box (getBox v) = none))

/-- Size-based flag used only in the termination measure of add. -/
def innerFlag : Node T → ℕ
  | .inner _ _ _ _ _ => 1
  | .leaf _ => 0

/-- Embeds the private recursive Quadtree::add.  A full leaf below
MaxDepth is split and the insertion retried at the same node and depth,
exactly as in the source. -/
def add : Node T → ℕ → Box F → T → Node T
  | .leaf vs, depth, box, v =>
    if MaxDepth ≤ depth ∨ vs.length < Threshold then .leaf (vs ++ [v])
    else add (split getBox box vs) depth box v
  | .inner c0 c1 c2 c3 vs, depth, box, v =>
    match getQuadrant box (getBox v) with
    | some ⟨0, _⟩ => .inner (add c0 (depth + 1) (computeBox box 0) v) c1 c2 c3 vs
    | some ⟨1, _⟩ => .inner c0 (add c1 (depth + 1) (computeBox box 1) v) c2 c3 vs
    | some ⟨2, _⟩ => .inner c0 c1 (add c2 (depth + 1) (computeBox box 2) v) c3 vs
    | some ⟨3, _⟩ => .inner c0 c1 c2 (add c3 (depth + 1) (computeBox box 3) v) vs
    | some ⟨n + 4, h⟩ => absurd h (by omega)
    | none => .inner c0 c1 c2 c3 (vs ++ [v])
termination_by n depth box v =>
  (2 * ((MaxDepth + 1) - depth) - innerFlag n, sizeOf n)
decreasing_by
  all_goals
    have lexH : ∀ a1 b1 a2 b2 : ℕ, (a1 < a2 ∨ (a1 = a2 ∧ b1 < b2)) →
        Prod.Lex (· < ·) (· < ·) (a1, b1) (a2, b2) := by
      intro a1 b1 a2 b2 h
      rcases h with h | ⟨h1, h2⟩
      · exact Prod.Lex.left _ _ h
      · subst h1; exact Prod.Lex.right _ h2
    apply lexH
  · left
    simp only [split, innerFlag, MaxDepth] at *
    omega
  all_goals
    have h0 : innerFlag c0 ≤ 1 := by cases c0 <;> simp [innerFlag]
    have h1 : innerFlag c1 ≤ 1 := by cases c1 <;> simp [innerFlag]
    have h2 : innerFlag c2 ≤ 1 := by cases c2 <;> simp [innerFlag]
    have h3 : innerFlag c3 ≤ 1 := by cases c3 <;> simp [innerFlag]
    simp only [innerFlag, MaxDepth] at *
    rcases le_or_lt depth 8 with hd | hd
    · left; omega
    · right
      refine ⟨by omega, ?_⟩
      simp
      omega

variable (eqv : T → T → Bool)

/-- Embeds Quadtree::removeValue: the first bucket entry equal to the
value (per the equality predicate) is overwritten with the last entry and
the last entry is popped.  When no entry matches, the source asserts (and
then has undefined behavior); the embedding returns the bucket unchanged
in that unreachable case. -/
def removeValue (vs : List T) (v : T) : List T :=
  match vs.findIdx? (fun r => eqv v r) with
  | some i =>
    match vs.getLast? with
    | some last => (vs.set i last).dropLast
    | none => vs
  | none => vs

/-- Embeds Quadtree::tryMerge: when all four children are leaves and the
aggregate count fits in Threshold, the children's buckets are appended to
the node's bucket (in child order) and the children are dropped. -/
def tryMerge : Node T → Node T
  | .inner (.leaf v0) (.leaf v1) (.leaf v2) (.leaf v3) vs =>
    if vs.length + (v0.length + v1.length + v2.length + v3.length) ≤ Threshold then
      .leaf (vs ++ (v0 ++ v1 ++ v2 ++ v3))
    else .inner (.leaf v0) (.leaf v1) (.leaf v2) (.leaf v3) vs
  | n => n

/-- Embeds the private recursive Quadtree::remove.  When the removal
happens at a leaf, the source then calls tryMerge on the parent, which
here is done by the caller frame (the parent checks whether the child it
descended into was a leaf). -/
def remove : Node T → Box F → T → Node T
  | .leaf vs, _, v => .leaf (removeValue eqv vs v)
  | .inner c0 c1 c2 c3 vs, box, v =>
    match getQuadrant box (getBox v) with
    | some ⟨0, _⟩ =>
      let n := Node.inner (remove c0 (computeBox box 0) v) c1 c2 c3 vs
      if c0.isLeaf then tryMerge n else n
    | some ⟨1, _⟩ =>
      let n := Node.inner c0 (remove c1 (computeBox box 1) v) c2 c3 vs
      if c1.isLeaf then tryMerge n else n
    | some ⟨2, _⟩ =>
      let n := Node.inner c0 c1 (remove c2 (computeBox box 2) v) c3 vs
      if c2.isLeaf then tryMerge n else n
    | some ⟨3, _⟩ =>
      let n := Node.inner c0 c1 c2 (remove c3 (computeBox box 3) v) vs
      if c3.isLeaf then tryMerge n else n
    | some ⟨n + 4, h⟩ => absurd h (by omega)
    | none => .inner c0 c1 c2 c3 (removeValue eqv vs v)

/-- Embeds the private recursive Quadtree::query: bucket entries whose box
intersects the query box are reported, then each child whose region
intersects the query box is visited in order. -/
def query : Node T → Box F → Box F → List T
  | .leaf vs, _, queryBox =>
    vs.filter fun v => decide (queryBox.intersects (getBox v))
  | .inner c0 c1 c2 c3 vs, box, queryBox =>
    (vs.filter fun v => decide (queryBox.intersects (getBox v))) ++
    ((if queryBox.intersects (computeBox box 0) then
        query c0 (computeBox box 0) queryBox else []) ++
     (if queryBox.intersects (computeBox box 1) then
        query c1 (computeBox box 1) queryBox else []) ++
     (if queryBox.intersects (computeBox box 2) then
        query c2 (computeBox box 2) queryBox else []) ++
     (if queryBox.intersects (computeBox box 3) then
        query c3 (computeBox box 3) queryBox else []))

/-- Embeds the conditions of the assert statements executed by a run of
the private Quadtree::query: the assert at entry requires the query box to
intersect the node region, and each visited child must satisfy the same
condition recursively. -/
def queryAssertOk : Node T → Box F → Box F → Prop
  | .leaf _, box, queryBox => queryBox.intersects box
  | .inner c0 c1 c2 c3 _, box, queryBox =>
    queryBox.intersects box ∧
    (queryBox.intersects (computeBox box 0) →
      queryAssertOk c0 (computeBox box 0) queryBox) ∧
    (queryBox.intersects (computeBox box 1) →
      queryAssertOk c1 (computeBox box 1) queryBox) ∧
    (queryBox.intersects (computeBox box 2) →
      queryAssertOk c2 (computeBox box 2) queryBox) ∧
    (queryBox.intersects (computeBox box 3) →
      queryAssertOk c3 (computeBox box 3) queryBox)

/-- Embeds the intra-node double loop of Quadtree::findAllIntersections:
for each bucket entry, in order, it is paired with every earlier entry
whose box intersects its box (prev holds the earlier entries). -/
def nodePairs (prev : List T) : List T → List (T × T)
  | [] => []
  | v :: rest =>
    ((prev.filter fun w => decide ((getBox v).intersects (getBox w))).map
      fun w => (v, w)) ++ nodePairs (prev ++ [v]) rest

/-- Embeds Quadtree::findIntersectionsInDescendants: pairs the given value
with every value in the subtree whose box intersects its box. -/
def findIntersectionsInDescendants : Node T → T → List (T × T)
  | .leaf vs, v =>
    (vs.filter fun w => decide ((getBox v).intersects (getBox w))).map
      fun w => (v, w)
  | .inner c0 c1 c2 c3 vs, v =>
    ((vs.filter fun w => decide ((getBox v).intersects (getBox w))).map
      fun w => (v, w)) ++
    (findIntersectionsInDescendants c0 v ++ findIntersectionsInDescendants c1 v ++
     findIntersectionsInDescendants c2 v ++ findIntersectionsInDescendants c3 v)

/-- Embeds the private recursive Quadtree::findAllIntersections:
intra-node pairs, then each bucket entry against each child subtree, then
the children recursively. -/
def findAllIntersections : Node T → List (T × T)
  | .leaf vs => nodePairs getBox [] vs
  | .inner c0 c1 c2 c3 vs =>
    nodePairs getBox [] vs ++
    ((vs.flatMap fun v => findIntersectionsInDescendants getBox c0 v) ++
     (vs.flatMap fun v => findIntersectionsInDescendants getBox c1 v) ++
     (vs.flatMap fun v => findIntersectionsInDescendants getBox c2 v) ++
     (vs.flatMap fun v => findIntersectionsInDescendants getBox c3 v)) ++
    (findAllIntersections c0 ++ findAllIntersections c1 ++
     findAllIntersections c2 ++ findAllIntersections c3)

/-- Embeds Quadtree::findClosestImpl.  The best candidate so far is
threaded through; a subtree is pruned when its region's distance to the
search box exceeds the best distance; bucket entries are tested in order
with a strict comparison; children are visited in the order given by the
source's index permutation, where rl and bt are the source's 0/1 flags as
booleans (false = 0, true = 1) and the visit order is
bt*2+rl, bt*2+(1-rl), (1-bt)*2+rl, (1-bt)*2+(1-rl). -/
def findClosestImpl (sqrt : F → F) (pred : T → Box F → Bool) (searchBox : Box F) :
    (Option T × F) → Node T → Box F → Option T × F
  | best, n, nodeBox =>
    if distance sqrt searchBox nodeBox > best.2 then best
    else
      let best1 := n.values.foldl (fun b itm =>
        let currBox := getBox itm
        let currDist := distance sqrt currBox searchBox
        if currDist < b.2 ∧ pred itm currBox then (some itm, currDist) else b) best
      match n with
      | .leaf _ => best1
      | .inner c0 c1 c2 c3 _ =>
        let rl : Bool :=
          decide (searchBox.left * 2 + searchBox.width >
            nodeBox.left * 2 + nodeBox.width)
        let bt : Bool :=
          decide (searchBox.top * 2 + searchBox.height >
            nodeBox.top * 2 + nodeBox.height)
        match rl, bt with
        | false, false =>
          let b2 := findClosestImpl sqrt pred searchBox best1 c0 (computeBox nodeBox 0)
          let b3 := findClosestImpl sqrt pred searchBox b2 c1 (computeBox nodeBox 1)
          let b4 := findClosestImpl sqrt pred searchBox b3 c2 (computeBox nodeBox 2)
          findClosestImpl sqrt pred searchBox b4 c3 (computeBox nodeBox 3)
        | true, false =>
          let b2 := findClosestImpl sqrt pred searchBox best1 c1 (computeBox nodeBox 1)
          let b3 := findClosestImpl sqrt pred searchBox b2 c0 (computeBox nodeBox 0)
          let b4 := findClosestImpl sqrt pred searchBox b3 c3 (computeBox nodeBox 3)
          findClosestImpl sqrt pred searchBox b4 c2 (computeBox nodeBox 2)
        | false, true =>
          let b2 := findClosestImpl sqrt pred searchBox best1 c2 (computeBox nodeBox 2)
          let b3 := findClosestImpl sqrt pred searchBox b2 c3 (computeBox nodeBox 3)
          let b4 := findClosestImpl sqrt pred searchBox b3 c0 (computeBox nodeBox 0)
          findClosestImpl sqrt pred searchBox b4 c1 (computeBox nodeBox 1)
        | true, true =>
          let b2 := findClosestImpl sqrt pred searchBox best1 c3 (computeBox nodeBox 3)
          let b3 := findClosestImpl sqrt pred searchBox b2 c2 (computeBox nodeBox 2)
          let b4 := findClosestImpl sqrt pred searchBox b3 c1 (computeBox nodeBox 1)
          findClosestImpl sqrt pred searchBox b4 c0 (computeBox nodeBox 0)

/-- Embeds the public Quadtree::findClosest: the initial best distance is
the loose bound taken from the world box's absolute linear extent, and the
initial candidate is null. -/
def findClosest (sqrt : F → F) (pred : T → Box F → Bool)
    (world : Box F) (root : Node T) (searchBox : Box F) : Option T :=
  (findClosestImpl getBox sqrt pred searchBox
    (none, |world.width| + |world.height|) root world).1

/-- The order in which findClosestImpl encounters the stored items of a
subtree when no pruning occurs: the node's bucket in list order, then the
four children in the order of the source's index permutation for the
given search box and node region (the same rl/bt flags as in
findClosestImpl).  Pruning only skips over items that cannot become the
incumbent, so this is the tie-breaking order of the search. -/
def travOrder (searchBox : Box F) : Node T → Box F → List T
  | .leaf vs, _ => vs
  | .inner c0 c1 c2 c3 vs, nodeBox =>
    let rl : Bool :=
      decide (searchBox.left * 2 + searchBox.width >
        nodeBox.left * 2 + nodeBox.width)
    let bt : Bool :=
      decide (searchBox.top * 2 + searchBox.height >
        nodeBox.top * 2 + nodeBox.height)
    match rl, bt with
    | false, false =>
      vs ++ travOrder searchBox c0 (computeBox nodeBox 0) ++
        travOrder searchBox c1 (computeBox nodeBox 1) ++
        travOrder searchBox c2 (computeBox nodeBox 2) ++
        travOrder searchBox c3 (computeBox nodeBox 3)
    | true, false =>
      vs ++ travOrder searchBox c1 (computeBox nodeBox 1) ++
        travOrder searchBox c0 (computeBox nodeBox 0) ++
        travOrder searchBox c3 (computeBox nodeBox 3) ++
        travOrder searchBox c2 (computeBox nodeBox 2)
    | false, true =>
      vs ++ travOrder searchBox c2 (computeBox nodeBox 2) ++
        travOrder searchBox c3 (computeBox nodeBox 3) ++
        travOrder searchBox c0 (computeBox nodeBox 0) ++
        travOrder searchBox c1 (computeBox nodeBox 1)
    | true, true =>
      vs ++ travOrder searchBox c3 (computeBox nodeBox 3) ++
        travOrder searchBox c2 (computeBox nodeBox 2) ++
        travOrder searchBox c1 (computeBox nodeBox 1) ++
        travOrder searchBox c0 (computeBox nodeBox 0)

/-- States that a tree is reachable from the fresh tree (an empty leaf
root, as built by the constructor) by the public add and remove
operations, each applied to an item whose box is contained in the world
box as the source's assertions demand. -/
inductive Reachable (world : Box F) : Node T → Prop where
  | init : Reachable world (.leaf [])
  | addOp (n : Node T) (v : T) : Reachable world n →
      world.contains (getBox v) → Reachable world (add getBox n 0 world v)
  | removeOp (n : Node T) (v : T) : Reachable world n →
      world.contains (getBox v) → Reachable world (remove getBox eqv n world v)

/-- Containment invariant of a subtree: every bucket entry of every node
is contained in that node's region, regions being derived through
computeBox. -/
def Inv : Box F → Node T → Prop
  | box, .leaf vs => ∀ v ∈ vs, box.contains (getBox v)
  | box, .inner c0 c1 c2 c3 vs =>
    (∀ v ∈ vs, box.contains (getBox v)) ∧
    Inv (computeBox box 0) c0 ∧ Inv (computeBox box 1) c1 ∧
    Inv (computeBox box 2) c2 ∧ Inv (computeBox box 3) c3

instance instDecidableInv [DecidableEq F] : ∀ (box : Box F) (n : Node T),
    Decidable (Inv getBox box n)
  | box, .leaf vs => by unfold Inv; exact inferInstance
  | box, .inner c0 c1 c2 c3 vs => by
    unfold Inv
    have d0 := instDecidableInv (computeBox box 0) c0
    have d1 := instDecidableInv (computeBox box 1) c1
    have d2 := instDecidableInv (computeBox box 2) c2
    have d3 := instDecidableInv (computeBox box 3) c3
    exact inferInstance

/-- Leaf-threshold invariant indexed by the depth of the subtree root:
every leaf at depth strictly below MaxDepth holds at most Threshold
values. -/
def DepthInv : ℕ → Node T → Prop
  | d, .leaf vs => d < MaxDepth → vs.length ≤ Threshold
  | d, .inner c0 c1 c2 c3 _ =>
    DepthInv (d + 1) c0 ∧ DepthInv (d + 1) c1 ∧
      DepthInv (d + 1) c2 ∧ DepthInv (d + 1) c3

instance instDecidableDepthInv : ∀ (d : ℕ) (n : Node T), Decidable (DepthInv d n)
  | _, .leaf _ => by unfold DepthInv; exact inferInstance
  | d, .inner c0 c1 c2 c3 _ => by
    unfold DepthInv
    have d0 := instDecidableDepthInv (d + 1) c0
    have d1 := instDecidableDepthInv (d + 1) c1
    have d2 := instDecidableDepthInv (d + 1) c2
    have d3 := instDecidableDepthInv (d + 1) c3
    exact inferInstance

/-- Straddle property of interior buckets: every value retained in an
interior node bucket fails the quadrant classification (the source
getQuadrant returns -1 for it), recursively through the tree. -/
def StraddleInv : Box F → Node T → Prop
  | _, .leaf _ => True
  | box, .inner c0 c1 c2 c3 vs =>
    (∀ v ∈ vs, getQuadrant box (getBox v) = none) ∧
    StraddleInv (computeBox box 0) c0 ∧ StraddleInv (computeBox box 1) c1 ∧
      StraddleInv (computeBox box 2) c2 ∧ StraddleInv (computeBox box 3) c3

instance instDecidableStraddleInv [DecidableEq F] :
    ∀ (box : Box F) (n : Node T), Decidable (StraddleInv getBox box n)
  | _, .leaf _ => by unfold StraddleInv; exact inferInstance
  | box, .inner c0 c1 c2 c3 _ => by
    unfold StraddleInv
    have d0 := instDecidableStraddleInv (computeBox box 0) c0
    have d1 := instDecidableStraddleInv (computeBox box 1) c1
    have d2 := instDecidableStraddleInv (computeBox box 2) c2
    have d3 := instDecidableStraddleInv (computeBox box 3) c3
    exact inferInstance

/-- Location predicate: the quadrant descent performed by remove for
value v reaches a node whose bucket holds an entry equal to v under the
equality predicate. -/
def Findable : Node T → Box F → T → Prop
  | .leaf vs, _, v => ∃ r ∈ vs, eqv v r
  | .inner c0 c1 c2 c3 vs, box, v =>
    match getQuadrant box (getBox v) with
    | some ⟨0, _⟩ => Findable c0 (computeBox box 0) v
    | some ⟨1, _⟩ => Findable c1 (computeBox box 1) v
    | some ⟨2, _⟩ => Findable c2 (computeBox box 2) v
    | some ⟨3, _⟩ => Findable c3 (computeBox box 3) v
    | some ⟨_ + 4, h⟩ => absurd h (by omega)
    | none => ∃ r ∈ vs, eqv v r

/-- Enumerates each entry of a list paired with every later entry, in
order of the earlier index and then the later index. -/
def pairsOf : List T → List (T × T)
  | [] => []
  | v :: rest => (rest.map fun w => (v, w)) ++ pairsOf rest

/-- Enumerates the pairs of one entry from the first list and one from
the second. -/
def crossPairs (A B : List T) : List (T × T) :=
  A.flatMap fun a => B.map fun b => (a, b)

/-- Boolean test that the boxes of the two components of a pair
intersect. -/
def interPair (p : T × T) : Bool :=
  decide ((getBox p.1).intersects (getBox p.2))

/-- Unordered view of a pair list: the multiset of its pairs with the
orientation forgotten. -/
def symPairs (l : List (T × T)) : Multiset (Sym2 T) :=
  ↑(l.map fun p => Sym2.mk p)

/-- Horizontal separation of two boxes: zero when their x ranges overlap
or touch, the gap width otherwise. -/
def gapX (a b : Box F) : F :=
  max 0 (max (b.left - (a.left + a.width)) (a.left - (b.left + b.width)))

/-- Vertical separation of two boxes: zero when their y ranges overlap or
touch, the gap height otherwise. -/
def gapY (a b : Box F) : F :=
  max 0 (max (b.top - (a.top + a.height)) (a.top - (b.top + b.height)))

/-- States that every value stored in the subtree has a box of
non-negative width and height (the documented Box invariant). -/
def BoxesNonneg (n : Node T) : Prop :=
  ∀ v ∈ n.allValues, 0 ≤ (getBox v).width ∧ 0 ≤ (getBox v).height

/-- Search-state contract of one findClosestImpl step over the ordered
item list S it scans: the best distance never increases, it ends at or
below the distance of every admissible item of S, and the final state is
either exactly the incoming state, or an admissible item of S paired with
its distance, which strictly improves on the incoming bound and is
strictly below the distance of every admissible item scanned before it
(the incumbent is replaced only on strictly smaller distance, so the
first item attaining the final distance wins). -/
def GoodFor {T : Type} (getBox : T → Box ℝ) (pred : T → Box ℝ → Bool)
    (searchBox : Box ℝ) (S : List T) (b b2 : Option T × ℝ) : Prop :=
  b2.2 ≤ b.2 ∧
  (∀ v ∈ S, pred v (getBox v) = true →
    b2.2 ≤ distance Real.sqrt (getBox v) searchBox) ∧
  (b2 = b ∨ ∃ l1 v l2, S = l1 ++ v :: l2 ∧ pred v (getBox v) = true ∧
    b2 = (some v, distance Real.sqrt (getBox v) searchBox) ∧ b2.2 < b.2 ∧
    ∀ u ∈ l1, pred u (getBox u) = true →
      b2.2 < distance Real.sqrt (getBox u) searchBox)

/-- Item type used by the concrete rational test trees: an id with its
box. -/
def ItmQ : Type := ℕ × Box ℚ

instance : DecidableEq ItmQ := by unfold ItmQ; exact inferInstance

/-- Box extractor for the concrete test items. -/
def gbQ : ItmQ → Box ℚ := Prod.snd

/-- Equality predicate for the concrete test items: true equality. -/
def evQ : ItmQ → ItmQ → Bool := fun a b => decide (a = b)

/-- World box of the concrete rational test tree. -/
def worldQ : Box ℚ := ⟨0, 0, 100, 100⟩

/-- Concrete rational test tree: three items added to the fresh tree. -/
def treeQ3 : Node ItmQ :=
  add gbQ (add gbQ (add gbQ (.leaf []) 0 worldQ (1, ⟨10, 10, 10, 10⟩))
    0 worldQ (2, ⟨40, 15, 10, 10⟩)) 0 worldQ (3, ⟨30, 30, 10, 10⟩)

/-- World box of the concrete splitting scenario. -/
def w2Q : Box ℚ := ⟨0, 0, 2, 2⟩

/-- Sixteen small items in the north-west quadrant of w2Q. -/
def smallQ (i : ℕ) : ItmQ := (i, ⟨0, 0, 1/4, 1/4⟩)

/-- Item whose box touches the vertical and horizontal center lines of
w2Q from the inside: its right edge lies exactly on the center. -/
def straddlerQ : ItmQ := (99, ⟨0, 0, 1, 1⟩)

/-- Concrete tree that forces a split: sixteen small items and then the
straddler, all added to the fresh tree. -/
def treeC5 : Node ItmQ :=
  add gbQ (((List.range 16).map smallQ).foldl (fun n v => add gbQ n 0 w2Q v)
    (.leaf [])) 0 w2Q straddlerQ

instance instDecidableQueryAssertOk [DecidableEq F] :
    ∀ (n : Node T) (box qb : Box F), Decidable (queryAssertOk n box qb)
  | .leaf _, _, _ => by unfold queryAssertOk; exact inferInstance
  | .inner c0 c1 c2 c3 _, box, qb => by
    unfold queryAssertOk
    have d0 := instDecidableQueryAssertOk c0 (computeBox box 0) qb
    have d1 := instDecidableQueryAssertOk c1 (computeBox box 1) qb
    have d2 := instDecidableQueryAssertOk c2 (computeBox box 2) qb
    have d3 := instDecidableQueryAssertOk c3 (computeBox box 3) qb
    exact inferInstance

theorem Box.contains_trans {a b c : Box F} (h1 : a.contains b) (h2 : b.contains c) :
    a.contains c := by
  obtain ⟨p1, p2, p3, p4⟩ := h1
  obtain ⟨q1, q2, q3, q4⟩ := h2
  exact ⟨le_trans p1 q1, le_trans q2 p2, le_trans p3 q3, le_trans q4 p4⟩

theorem Box.intersects_of_contains {q b v : Box F} (hc : b.contains v)
    (hi : q.intersects v) : q.intersects b := by
  simp only [Box.contains, Box.intersects, Box.getRight, Box.getBottom] at *
  push_neg at hi ⊢
  obtain ⟨c1, c2, c3, c4⟩ := hc
  obtain ⟨i1, i2, i3, i4⟩ := hi
  refine ⟨by linarith, by linarith, by linarith, by linarith⟩

theorem Box.intersects_symm {a b : Box F} (h : a.intersects b) : b.intersects a := by
  simp only [Box.intersects, Box.getRight, Box.getBottom] at *
  push_neg at h ⊢
  obtain ⟨i1, i2, i3, i4⟩ := h
  refine ⟨by linarith, by linarith, by linarith, by linarith⟩

theorem computeBox_nonneg {box : Box F} (hw : 0 ≤ box.width) (hh : 0 ≤ box.height)
    (i : Fin 4) :
    0 ≤ (computeBox box i).width ∧ 0 ≤ (computeBox box i).height := by
  obtain ⟨iv, hi⟩ := i
  interval_cases iv <;> simp [computeBox] <;> constructor <;> linarith

theorem contains_computeBox {box : Box F} (hw : 0 ≤ box.width) (hh : 0 ≤ box.height)
    (i : Fin 4) : box.contains (computeBox box i) := by
  obtain ⟨iv, hi⟩ := i
  interval_cases iv <;>
    simp only [computeBox, Box.contains, Box.getRight, Box.getBottom] <;>
    refine ⟨by linarith, by linarith, by linarith, by linarith⟩

theorem computeBox_contains_of_getQuadrant {box vb : Box F} {i : Fin 4}
    (h : getQuadrant box vb = some i) (hc : box.contains vb) :
    (computeBox box i).contains vb := by
  obtain ⟨c1, c2, c3, c4⟩ := hc
  simp only [getQuadrant, Box.centerX, Box.centerY, Box.getRight, Box.getBottom] at h
  simp only [Box.getRight, Box.getBottom] at c1 c2 c3 c4
  split_ifs at h with h1 h2 h3 h4 h5 h6 <;>
    (injection h with h; subst h) <;>
    simp only [computeBox, Box.contains, Box.getRight, Box.getBottom] <;>
    refine ⟨by linarith, by linarith, by linarith, by linarith⟩

theorem computeBox_disjoint {box : Box F} (hw : 0 ≤ box.width) (hh : 0 ≤ box.height)
    {i j : Fin 4} (hij : i ≠ j) :
    ¬ (computeBox box i).intersects (computeBox box j) := by
  obtain ⟨iv, hi⟩ := i
  obtain ⟨jv, hj⟩ := j
  have hne : iv ≠ jv := by
    intro h; exact hij (by simp [h])
  interval_cases iv <;> interval_cases jv <;>
    simp only [computeBox, Box.intersects, Box.getRight, Box.getBottom, not_not] <;>
    first
      | exact absurd rfl hne
      | exact Or.inl (by linarith)
      | exact Or.inr (Or.inl (by linarith))
      | exact Or.inr (Or.inr (Or.inl (by linarith)))
      | exact Or.inr (Or.inr (Or.inr (by linarith)))

theorem Inv_allValues_contains {box : Box F} {n : Node T}
    (hw : 0 ≤ box.width) (hh : 0 ≤ box.height) (hInv : Inv getBox box n) :
    ∀ v ∈ n.allValues, box.contains (getBox v) := by
  induction n generalizing box with
  | leaf vs => exact hInv
  | inner c0 c1 c2 c3 vs ih0 ih1 ih2 ih3 =>
    obtain ⟨hb, h0, h1, h2, h3⟩ := hInv
    intro v hv
    simp only [Node.allValues, List.mem_append] at hv
    rcases hv with hv | (((hv | hv) | hv) | hv)
    · exact hb v hv
    · exact Box.contains_trans (contains_computeBox hw hh 0)
        (ih0 (computeBox_nonneg hw hh 0).1 (computeBox_nonneg hw hh 0).2 h0 v hv)
    · exact Box.contains_trans (contains_computeBox hw hh 1)
        (ih1 (computeBox_nonneg hw hh 1).1 (computeBox_nonneg hw hh 1).2 h1 v hv)
    · exact Box.contains_trans (contains_computeBox hw hh 2)
        (ih2 (computeBox_nonneg hw hh 2).1 (computeBox_nonneg hw hh 2).2 h2 v hv)
    · exact Box.contains_trans (contains_computeBox hw hh 3)
        (ih3 (computeBox_nonneg hw hh 3).1 (computeBox_nonneg hw hh 3).2 h3 v hv)

theorem split_Inv {box : Box F} {vs : List T}
    (h : ∀ v ∈ vs, box.contains (getBox v)) :
    Inv getBox box (split getBox box vs) := by
  simp only [split, Inv]
  refine ⟨fun v hv => h v (List.mem_of_mem_filter hv), ?_, ?_, ?_, ?_⟩ <;>
  · intro v hv
    rw [List.mem_filter] at hv
    exact computeBox_contains_of_getQuadrant (of_decide_eq_true hv.2) (h v hv.1)

theorem add_Inv : ∀ (n : Node T) (depth : ℕ) (box : Box F) (v : T),
    Inv getBox box n → box.contains (getBox v) →
    Inv getBox box (add getBox n depth box v) := by
  intro n depth box v
  induction n, depth, box, v using add.induct getBox with
  | case1 vs depth box v hcond =>
    intro hInv hv
    rw [add, if_pos hcond]
    simp only [Inv] at *
    intro w hw
    rcases List.mem_append.1 hw with hw | hw
    · exact hInv w hw
    · rw [List.mem_singleton] at hw; subst hw; exact hv
  | case2 vs depth box v hcond ih =>
    intro hInv hv
    rw [add, if_neg hcond]
    exact ih (split_Inv getBox hInv) hv
  | case3 c0 c1 c2 c3 vs depth box v hLt hq ih =>
    intro hInv hv
    rw [add]
    simp only [hq]
    obtain ⟨hb, h0, h1, h2, h3⟩ := hInv
    exact ⟨hb, ih h0 (computeBox_contains_of_getQuadrant hq hv), h1, h2, h3⟩
  | case4 c0 c1 c2 c3 vs depth box v hLt hq ih =>
    intro hInv hv
    rw [add]
    simp only [hq]
    obtain ⟨hb, h0, h1, h2, h3⟩ := hInv
    exact ⟨hb, h0, ih h1 (computeBox_contains_of_getQuadrant hq hv), h2, h3⟩
  | case5 c0 c1 c2 c3 vs depth box v hLt hq ih =>
    intro hInv hv
    rw [add]
    simp only [hq]
    obtain ⟨hb, h0, h1, h2, h3⟩ := hInv
    exact ⟨hb, h0, h1, ih h2 (computeBox_contains_of_getQuadrant hq hv), h3⟩
  | case6 c0 c1 c2 c3 vs depth box v hLt hq ih =>
    intro hInv hv
    rw [add]
    simp only [hq]
    obtain ⟨hb, h0, h1, h2, h3⟩ := hInv
    exact ⟨hb, h0, h1, h2, ih h3 (computeBox_contains_of_getQuadrant hq hv)⟩
  | case7 c0 c1 c2 c3 vs depth box v n h hq => exact absurd h (by omega)
  | case8 c0 c1 c2 c3 vs depth box v hq =>
    intro hInv hv
    rw [add]
    simp only [hq]
    obtain ⟨hb, h0, h1, h2, h3⟩ := hInv
    refine ⟨?_, h0, h1, h2, h3⟩
    intro w hw
    rcases List.mem_append.1 hw with hw | hw
    · exact hb w hw
    · rw [List.mem_singleton] at hw; subst hw; exact hv

theorem removeValue_subset (vs : List T) (v : T) :
    ∀ x ∈ removeValue eqv vs v, x ∈ vs := by
  intro x hx
  unfold removeValue at hx
  split at hx
  · split at hx
    · next last hlast =>
      have h1 := (List.dropLast_sublist _).subset hx
      rcases List.mem_or_eq_of_mem_set h1 with h | h
      · exact h
      · subst h
        obtain ⟨ys, hys⟩ := List.getLast?_eq_some_iff.1 hlast
        subst hys; simp
    · exact hx
  · exact hx

theorem tryMerge_Inv {box : Box F} {n : Node T}
    (hw : 0 ≤ box.width) (hh : 0 ≤ box.height)
    (hInv : Inv getBox box n) : Inv getBox box (tryMerge n) := by
  unfold tryMerge
  split
  · next v0 v1 v2 v3 vs =>
    split
    · obtain ⟨hb, h0, h1, h2, h3⟩ := hInv
      simp only [Inv] at h0 h1 h2 h3 ⊢
      intro w hw2
      have trans4 : ∀ (k : Fin 4) (ws : List T),
          (∀ u ∈ ws, (computeBox box k).contains (getBox u)) → w ∈ ws →
          box.contains (getBox w) := fun k ws hws hmem =>
        Box.contains_trans (contains_computeBox hw hh k) (hws w hmem)
      rcases List.mem_append.1 hw2 with hw2 | hw2
      · exact hb w hw2
      · rcases List.mem_append.1 hw2 with hw2 | hw2
        · rcases List.mem_append.1 hw2 with hw2 | hw2
          · rcases List.mem_append.1 hw2 with hw2 | hw2
            · exact trans4 0 v0 h0 hw2
            · exact trans4 1 v1 h1 hw2
          · exact trans4 2 v2 h2 hw2
        · exact trans4 3 v3 h3 hw2
    · exact hInv
  · exact hInv

theorem remove_Inv : ∀ (n : Node T) (box : Box F) (v : T),
    0 ≤ box.width → 0 ≤ box.height → Inv getBox box n →
    Inv getBox box (remove getBox eqv n box v) := by
  intro n box v
  induction n, box, v using remove.induct getBox eqv with
  | case1 vs box v =>
    intro hw hh hInv
    rw [remove]
    simp only [Inv] at *
    exact fun w hw2 => hInv w (removeValue_subset eqv vs v w hw2)
  | case2 c0 c1 c2 c3 vs box v hLt hq hleaf ih =>
    intro hw hh hInv
    rw [remove]
    simp only [hq]
    obtain ⟨hb, h0, h1, h2, h3⟩ := hInv
    have hn := @computeBox_nonneg _ _ box hw hh 0
    have hInner : Inv getBox box
        (Node.inner (remove getBox eqv c0 (computeBox box 0) v) c1 c2 c3 vs) :=
      ⟨hb, ih hn.1 hn.2 h0, h1, h2, h3⟩
    rw [if_pos hleaf]
    exact tryMerge_Inv getBox hw hh hInner
  | case3 c0 c1 c2 c3 vs box v hLt hq hleaf ih =>
    intro hw hh hInv
    rw [remove]
    simp only [hq]
    obtain ⟨hb, h0, h1, h2, h3⟩ := hInv
    have hn := @computeBox_nonneg _ _ box hw hh 0
    have hInner : Inv getBox box
        (Node.inner (remove getBox eqv c0 (computeBox box 0) v) c1 c2 c3 vs) :=
      ⟨hb, ih hn.1 hn.2 h0, h1, h2, h3⟩
    rw [if_neg hleaf]
    exact hInner
  | case4 c0 c1 c2 c3 vs box v hLt hq hleaf ih =>
    intro hw hh hInv
    rw [remove]
    simp only [hq]
    obtain ⟨hb, h0, h1, h2, h3⟩ := hInv
    have hn := @computeBox_nonneg _ _ box hw hh 1
    have hInner : Inv getBox box
        (Node.inner c0 (remove getBox eqv c1 (computeBox box 1) v) c2 c3 vs) :=
      ⟨hb, h0, ih hn.1 hn.2 h1, h2, h3⟩
    rw [if_pos hleaf]
    exact tryMerge_Inv getBox hw hh hInner
  | case5 c0 c1 c2 c3 vs box v hLt hq hleaf ih =>
    intro hw hh hInv
    rw [remove]
    simp only [hq]
    obtain ⟨hb, h0, h1, h2, h3⟩ := hInv
    have hn := @computeBox_nonneg _ _ box hw hh 1
    have hInner : Inv getBox box
        (Node.inner c0 (remove getBox eqv c1 (computeBox box 1) v) c2 c3 vs) :=
      ⟨hb, h0, ih hn.1 hn.2 h1, h2, h3⟩
    rw [if_neg hleaf]
    exact hInner
  | case6 c0 c1 c2 c3 vs box v hLt hq hleaf ih =>
    intro hw hh hInv
    rw [remove]
    simp only [hq]
    obtain ⟨hb, h0, h1, h2, h3⟩ := hInv
    have hn := @computeBox_nonneg _ _ box hw hh 2
    have hInner : Inv getBox box
        (Node.inner c0 c1 (remove getBox eqv c2 (computeBox box 2) v) c3 vs) :=
      ⟨hb, h0, h1, ih hn.1 hn.2 h2, h3⟩
    rw [if_pos hleaf]
    exact tryMerge_Inv getBox hw hh hInner
  | case7 c0 c1 c2 c3 vs box v hLt hq hleaf ih =>
    intro hw hh hInv
    rw [remove]
    simp only [hq]
    obtain ⟨hb, h0, h1, h2, h3⟩ := hInv
    have hn := @computeBox_nonneg _ _ box hw hh 2
    have hInner : Inv getBox box
        (Node.inner c0 c1 (remove getBox eqv c2 (computeBox box 2) v) c3 vs) :=
      ⟨hb, h0, h1, ih hn.1 hn.2 h2, h3⟩
    rw [if_neg hleaf]
    exact hInner
  | case8 c0 c1 c2 c3 vs box v hLt hq hleaf ih =>
    intro hw hh hInv
    rw [remove]
    simp only [hq]
    obtain ⟨hb, h0, h1, h2, h3⟩ := hInv
    have hn := @computeBox_nonneg _ _ box hw hh 3
    have hInner : Inv getBox box
        (Node.inner c0 c1 c2 (remove getBox eqv c3 (computeBox box 3) v) vs) :=
      ⟨hb, h0, h1, h2, ih hn.1 hn.2 h3⟩
    rw [if_pos hleaf]
    exact tryMerge_Inv getBox hw hh hInner
  | case9 c0 c1 c2 c3 vs box v hLt hq hleaf ih =>
    intro hw hh hInv
    rw [remove]
    simp only [hq]
    obtain ⟨hb, h0, h1, h2, h3⟩ := hInv
    have hn := @computeBox_nonneg _ _ box hw hh 3
    have hInner : Inv getBox box
        (Node.inner c0 c1 c2 (remove getBox eqv c3 (computeBox box 3) v) vs) :=
      ⟨hb, h0, h1, h2, ih hn.1 hn.2 h3⟩
    rw [if_neg hleaf]
    exact hInner
  | case10 c0 c1 c2 c3 vs box v m h hq => exact absurd h (by omega)
  | case11 c0 c1 c2 c3 vs box v hq =>
    intro hw hh hInv
    rw [remove]
    simp only [hq]
    obtain ⟨hb, h0, h1, h2, h3⟩ := hInv
    exact ⟨fun w hw2 => hb w (removeValue_subset eqv vs v w hw2), h0, h1, h2, h3⟩

theorem Reachable_Inv {world : Box F} {n : Node T}
    (hw : 0 ≤ world.width) (hh : 0 ≤ world.height)
    (hr : Reachable getBox eqv world n) : Inv getBox world n := by
  induction hr with
  | init => intro v hv; cases hv
  | addOp n v _ hc ih => exact add_Inv getBox n 0 world v ih hc
  | removeOp n v _ hc ih => exact remove_Inv getBox eqv n world v hw hh ih

theorem filter_allValues_eq_nil {box : Box F} {n : Node T} {qb : Box F}
    (hw : 0 ≤ box.width) (hh : 0 ≤ box.height) (hInv : Inv getBox box n)
    (hni : ¬ qb.intersects box) :
    (n.allValues.filter fun v => decide (qb.intersects (getBox v))) = [] := by
  rw [List.filter_eq_nil_iff]
  intro a ha
  have hcont := Inv_allValues_contains getBox hw hh hInv a ha
  simp only [decide_eq_true_eq]
  exact fun hint => hni (Box.intersects_of_contains hcont hint)

theorem query_eq_filter {qb : Box F} : ∀ {box : Box F} {n : Node T},
    0 ≤ box.width → 0 ≤ box.height → Inv getBox box n →
    query getBox n box qb =
      n.allValues.filter fun v => decide (qb.intersects (getBox v)) := by
  intro box n
  induction n generalizing box with
  | leaf vs => intro _ _ _; rfl
  | inner c0 c1 c2 c3 vs ih0 ih1 ih2 ih3 =>
    intro hw hh hInv
    obtain ⟨hb, h0, h1, h2, h3⟩ := hInv
    have e : ∀ (k : Fin 4) (c : Node T), Inv getBox (computeBox box k) c →
        (0 ≤ (computeBox box k).width → 0 ≤ (computeBox box k).height →
          Inv getBox (computeBox box k) c →
          query getBox c (computeBox box k) qb =
            c.allValues.filter fun v => decide (qb.intersects (getBox v))) →
        (if qb.intersects (computeBox box k) then
            query getBox c (computeBox box k) qb else []) =
          c.allValues.filter fun v => decide (qb.intersects (getBox v)) := by
      intro k c hc ih
      have hn := @computeBox_nonneg _ _ box hw hh k
      by_cases hI : qb.intersects (computeBox box k)
      · rw [if_pos hI, ih hn.1 hn.2 hc]
      · rw [if_neg hI, filter_allValues_eq_nil getBox hn.1 hn.2 hc hI]
    simp only [query, Node.allValues, List.filter_append]
    rw [e 0 c0 h0 ih0, e 1 c1 h1 ih1, e 2 c2 h2 ih2, e 3 c3 h3 ih3]

theorem Reachable_addFold {world : Box F} {n : Node T}
    (hr : Reachable getBox eqv world n) :
    ∀ (l : List T), (∀ v ∈ l, world.contains (getBox v)) →
    Reachable getBox eqv world (l.foldl (fun m v => add getBox m 0 world v) n) := by
  intro l
  induction l generalizing n with
  | nil => intro _; exact hr
  | cons a l ih =>
    intro hall
    exact ih (hr.addOp n a (hall a (by simp)))
      fun v hv => hall v (List.mem_cons_of_mem a hv)

theorem treeQ3_reachable : Reachable gbQ evQ worldQ treeQ3 := by
  unfold treeQ3
  exact Reachable.addOp _ _ (Reachable.addOp _ _
    (Reachable.addOp _ _ Reachable.init (by with_unfolding_all decide)) (by with_unfolding_all decide)) (by with_unfolding_all decide)

theorem treeC5_reachable : Reachable gbQ evQ w2Q treeC5 := by
  unfold treeC5
  exact Reachable.addOp _ _
    (Reachable_addFold gbQ evQ Reachable.init _ (by with_unfolding_all decide)) (by with_unfolding_all decide)

/-- C1: for every tree reached from the fresh tree by add and remove
operations on items whose boxes are contained in the (well-formed) world
box, and for every query box, query returns exactly the multiset of
currently stored items whose box intersects the query box: no item is
missed, none is added, and multiplicities match the stored bucket
contents (the result is in fact the filter of the stored values in
traversal order). -/
theorem c1_query_exact {eqv : T → T → Bool} {world : Box F} {n : Node T}
    (hw : 0 ≤ world.width) (hh : 0 ≤ world.height)
    (hr : Reachable getBox eqv world n) (qb : Box F) :
    (↑(query getBox n world qb) : Multiset T) =
      ↑(n.allValues.filter fun v => decide (qb.intersects (getBox v))) := by
  rw [query_eq_filter getBox hw hh (Reachable_Inv getBox eqv hw hh hr)]

theorem c1_query_exact_witness :
    (0:ℚ) ≤ worldQ.width ∧
    (↑(query gbQ treeQ3 worldQ ⟨0, 0, 45, 45⟩) : Multiset ItmQ) =
      ↑(treeQ3.allValues.filter fun v =>
        decide ((Box.intersects ⟨0, 0, 45, 45⟩ (gbQ v)))) :=
  ⟨by with_unfolding_all decide, c1_query_exact gbQ (by with_unfolding_all decide) (by with_unfolding_all decide) treeQ3_reachable _⟩

/-- C4: containment invariant: in every tree reached from the fresh tree
by add and remove operations on items contained in the (well-formed)
world box, every node region derived through computeBox contains the box
of every item stored in that node's bucket. -/
theorem c4_containment {eqv : T → T → Bool} {world : Box F} {n : Node T}
    (hw : 0 ≤ world.width) (hh : 0 ≤ world.height)
    (hr : Reachable getBox eqv world n) : Inv getBox world n :=
  Reachable_Inv getBox eqv hw hh hr

theorem c4_containment_witness :
    (0:ℚ) ≤ worldQ.width ∧ Inv gbQ worldQ treeQ3 :=
  ⟨by with_unfolding_all decide, c4_containment gbQ (by with_unfolding_all decide) (by with_unfolding_all decide) treeQ3_reachable⟩

theorem add_DepthInv : ∀ (n : Node T) (depth : ℕ) (box : Box F) (v : T),
    DepthInv depth n → DepthInv depth (add getBox n depth box v) := by
  intro n depth box v
  induction n, depth, box, v using add.induct getBox with
  | case1 vs depth box v hcond =>
    intro hInv
    rw [add, if_pos hcond]
    simp only [DepthInv, List.length_append, List.length_singleton] at *
    intro hd
    rcases hcond with h | h
    · omega
    · simp only [Threshold] at *; omega
  | case2 vs depth box v hcond ih =>
    intro hInv
    rw [add, if_neg hcond]
    push_neg at hcond
    refine ih ?_
    simp only [split, DepthInv] at *
    have hlen : vs.length ≤ Threshold := hInv (by omega)
    exact ⟨fun _ => le_trans (List.length_filter_le _ _) hlen,
      fun _ => le_trans (List.length_filter_le _ _) hlen,
      fun _ => le_trans (List.length_filter_le _ _) hlen,
      fun _ => le_trans (List.length_filter_le _ _) hlen⟩
  | case3 c0 c1 c2 c3 vs depth box v hLt hq ih =>
    intro hInv
    rw [add]
    simp only [hq]
    obtain ⟨h0, h1, h2, h3⟩ := hInv
    exact ⟨ih h0, h1, h2, h3⟩
  | case4 c0 c1 c2 c3 vs depth box v hLt hq ih =>
    intro hInv
    rw [add]
    simp only [hq]
    obtain ⟨h0, h1, h2, h3⟩ := hInv
    exact ⟨h0, ih h1, h2, h3⟩
  | case5 c0 c1 c2 c3 vs depth box v hLt hq ih =>
    intro hInv
    rw [add]
    simp only [hq]
    obtain ⟨h0, h1, h2, h3⟩ := hInv
    exact ⟨h0, h1, ih h2, h3⟩
  | case6 c0 c1 c2 c3 vs depth box v hLt hq ih =>
    intro hInv
    rw [add]
    simp only [hq]
    obtain ⟨h0, h1, h2, h3⟩ := hInv
    exact ⟨h0, h1, h2, ih h3⟩
  | case7 c0 c1 c2 c3 vs depth box v m h hq => exact absurd h (by omega)
  | case8 c0 c1 c2 c3 vs depth box v hq =>
    intro hInv
    rw [add]
    simp only [hq]
    exact hInv

theorem removeValue_length_le (vs : List T) (v : T) :
    (removeValue eqv vs v).length ≤ vs.length := by
  unfold removeValue
  split
  · split
    · simp [List.length_dropLast, List.length_set]
    · exact le_refl _
  · exact le_refl _

theorem tryMerge_DepthInv {d : ℕ} {n : Node T} (hInv : DepthInv d n) :
    DepthInv d (tryMerge n) := by
  unfold tryMerge
  split
  · next v0 v1 v2 v3 vs =>
    split
    · next hle =>
      simp only [DepthInv]
      intro _
      simp only [List.length_append]
      omega
    · exact hInv
  · exact hInv

theorem remove_DepthInv : ∀ (n : Node T) (box : Box F) (v : T) (d : ℕ),
    DepthInv d n → DepthInv d (remove getBox eqv n box v) := by
  intro n box v
  induction n, box, v using remove.induct getBox eqv with
  | case1 vs box v =>
    intro d hInv
    rw [remove]
    simp only [DepthInv] at *
    exact fun hd => le_trans (removeValue_length_le eqv vs v) (hInv hd)
  | case2 c0 c1 c2 c3 vs box v hLt hq hleaf ih =>
    intro d hInv
    rw [remove]
    simp only [hq]
    obtain ⟨h0, h1, h2, h3⟩ := hInv
    rw [if_pos hleaf]
    exact tryMerge_DepthInv ⟨ih (d + 1) h0, h1, h2, h3⟩
  | case3 c0 c1 c2 c3 vs box v hLt hq hleaf ih =>
    intro d hInv
    rw [remove]
    simp only [hq]
    obtain ⟨h0, h1, h2, h3⟩ := hInv
    rw [if_neg hleaf]
    exact ⟨ih (d + 1) h0, h1, h2, h3⟩
  | case4 c0 c1 c2 c3 vs box v hLt hq hleaf ih =>
    intro d hInv
    rw [remove]
    simp only [hq]
    obtain ⟨h0, h1, h2, h3⟩ := hInv
    rw [if_pos hleaf]
    exact tryMerge_DepthInv ⟨h0, ih (d + 1) h1, h2, h3⟩
  | case5 c0 c1 c2 c3 vs box v hLt hq hleaf ih =>
    intro d hInv
    rw [remove]
    simp only [hq]
    obtain ⟨h0, h1, h2, h3⟩ := hInv
    rw [if_neg hleaf]
    exact ⟨h0, ih (d + 1) h1, h2, h3⟩
  | case6 c0 c1 c2 c3 vs box v hLt hq hleaf ih =>
    intro d hInv
    rw [remove]
    simp only [hq]
    obtain ⟨h0, h1, h2, h3⟩ := hInv
    rw [if_pos hleaf]
    exact tryMerge_DepthInv ⟨h0, h1, ih (d + 1) h2, h3⟩
  | case7 c0 c1 c2 c3 vs box v hLt hq hleaf ih =>
    intro d hInv
    rw [remove]
    simp only [hq]
    obtain ⟨h0, h1, h2, h3⟩ := hInv
    rw [if_neg hleaf]
    exact ⟨h0, h1, ih (d + 1) h2, h3⟩
  | case8 c0 c1 c2 c3 vs box v hLt hq hleaf ih =>
    intro d hInv
    rw [remove]
    simp only [hq]
    obtain ⟨h0, h1, h2, h3⟩ := hInv
    rw [if_pos hleaf]
    exact tryMerge_DepthInv ⟨h0, h1, h2, ih (d + 1) h3⟩
  | case9 c0 c1 c2 c3 vs box v hLt hq hleaf ih =>
    intro d hInv
    rw [remove]
    simp only [hq]
    obtain ⟨h0, h1, h2, h3⟩ := hInv
    rw [if_neg hleaf]
    exact ⟨h0, h1, h2, ih (d + 1) h3⟩
  | case10 c0 c1 c2 c3 vs box v m h hq => exact absurd h (by omega)
  | case11 c0 c1 c2 c3 vs box v hq =>
    intro d hInv
    rw [remove]
    simp only [hq]
    exact hInv

theorem Reachable_DepthInv {world : Box F} {n : Node T}
    (hr : Reachable getBox eqv world n) : DepthInv 0 n := by
  induction hr with
  | init => intro hd; simp
  | addOp n v _ _ ih => exact add_DepthInv getBox n 0 world v ih
  | removeOp n v _ _ ih => exact remove_DepthInv getBox eqv n world v 0 ih

/-- C6: leaf-threshold invariant: in every tree reached from the fresh
tree by add and remove operations on items contained in the world box,
every leaf at depth strictly less than MaxDepth = 8 holds at most
Threshold = 16 items (a leaf at depth 8 is unrestricted). -/
theorem c6_leaf_threshold {eqv : T → T → Bool} {world : Box F} {n : Node T}
    (hr : Reachable getBox eqv world n) :
    MaxDepth = 8 ∧ Threshold = 16 ∧ DepthInv 0 n :=
  ⟨rfl, rfl, Reachable_DepthInv getBox eqv hr⟩

theorem c6_leaf_threshold_witness :
    MaxDepth = 8 ∧ Threshold = 16 ∧ DepthInv 0 treeC5 :=
  c6_leaf_threshold gbQ treeC5_reachable

theorem tryMerge_StraddleInv {box : Box F} {n : Node T}
    (hInv : StraddleInv getBox box n) : StraddleInv getBox box (tryMerge n) := by
  unfold tryMerge
  split
  · split
    · simp [StraddleInv]
    · exact hInv
  · exact hInv

theorem add_StraddleInv : ∀ (n : Node T) (depth : ℕ) (box : Box F) (v : T),
    StraddleInv getBox box n → StraddleInv getBox box (add getBox n depth box v) := by
  intro n depth box v
  induction n, depth, box, v using add.induct getBox with
  | case1 vs depth box v hcond =>
    intro _
    rw [add, if_pos hcond]
    simp [StraddleInv]
  | case2 vs depth box v hcond ih =>
    intro _
    rw [add, if_neg hcond]
    refine ih ?_
    simp only [split, StraddleInv]
    refine ⟨?_, trivial, trivial, trivial, trivial⟩
    intro w hw
    rw [List.mem_filter] at hw
    exact of_decide_eq_true hw.2
  | case3 c0 c1 c2 c3 vs depth box v hLt hq ih =>
    intro hInv
    rw [add]
    simp only [hq]
    obtain ⟨hb, h0, h1, h2, h3⟩ := hInv
    exact ⟨hb, ih h0, h1, h2, h3⟩
  | case4 c0 c1 c2 c3 vs depth box v hLt hq ih =>
    intro hInv
    rw [add]
    simp only [hq]
    obtain ⟨hb, h0, h1, h2, h3⟩ := hInv
    exact ⟨hb, h0, ih h1, h2, h3⟩
  | case5 c0 c1 c2 c3 vs depth box v hLt hq ih =>
    intro hInv
    rw [add]
    simp only [hq]
    obtain ⟨hb, h0, h1, h2, h3⟩ := hInv
    exact ⟨hb, h0, h1, ih h2, h3⟩
  | case6 c0 c1 c2 c3 vs depth box v hLt hq ih =>
    intro hInv
    rw [add]
    simp only [hq]
    obtain ⟨hb, h0, h1, h2, h3⟩ := hInv
    exact ⟨hb, h0, h1, h2, ih h3⟩
  | case7 c0 c1 c2 c3 vs depth box v m h hq => exact absurd h (by omega)
  | case8 c0 c1 c2 c3 vs depth box v hq =>
    intro hInv
    rw [add]
    simp only [hq]
    obtain ⟨hb, h0, h1, h2, h3⟩ := hInv
    refine ⟨?_, h0, h1, h2, h3⟩
    intro w hw
    rcases List.mem_append.1 hw with hw | hw
    · exact hb w hw
    · rw [List.mem_singleton] at hw; subst hw; exact hq

theorem remove_StraddleInv : ∀ (n : Node T) (box : Box F) (v : T),
    StraddleInv getBox box n → StraddleInv getBox box (remove getBox eqv n box v) := by
  intro n box v
  induction n, box, v using remove.induct getBox eqv with
  | case1 vs box v =>
    intro _
    rw [remove]
    simp [StraddleInv]
  | case2 c0 c1 c2 c3 vs box v hLt hq hleaf ih =>
    intro hInv
    rw [remove]
    simp only [hq]
    obtain ⟨hb, h0, h1, h2, h3⟩ := hInv
    rw [if_pos hleaf]
    exact tryMerge_StraddleInv getBox ⟨hb, ih h0, h1, h2, h3⟩
  | case3 c0 c1 c2 c3 vs box v hLt hq hleaf ih =>
    intro hInv
    rw [remove]
    simp only [hq]
    obtain ⟨hb, h0, h1, h2, h3⟩ := hInv
    rw [if_neg hleaf]
    exact ⟨hb, ih h0, h1, h2, h3⟩
  | case4 c0 c1 c2 c3 vs box v hLt hq hleaf ih =>
    intro hInv
    rw [remove]
    simp only [hq]
    obtain ⟨hb, h0, h1, h2, h3⟩ := hInv
    rw [if_pos hleaf]
    exact tryMerge_StraddleInv getBox ⟨hb, h0, ih h1, h2, h3⟩
  | case5 c0 c1 c2 c3 vs box v hLt hq hleaf ih =>
    intro hInv
    rw [remove]
    simp only [hq]
    obtain ⟨hb, h0, h1, h2, h3⟩ := hInv
    rw [if_neg hleaf]
    exact ⟨hb, h0, ih h1, h2, h3⟩
  | case6 c0 c1 c2 c3 vs box v hLt hq hleaf ih =>
    intro hInv
    rw [remove]
    simp only [hq]
    obtain ⟨hb, h0, h1, h2, h3⟩ := hInv
    rw [if_pos hleaf]
    exact tryMerge_StraddleInv getBox ⟨hb, h0, h1, ih h2, h3⟩
  | case7 c0 c1 c2 c3 vs box v hLt hq hleaf ih =>
    intro hInv
    rw [remove]
    simp only [hq]
    obtain ⟨hb, h0, h1, h2, h3⟩ := hInv
    rw [if_neg hleaf]
    exact ⟨hb, h0, h1, ih h2, h3⟩
  | case8 c0 c1 c2 c3 vs box v hLt hq hleaf ih =>
    intro hInv
    rw [remove]
    simp only [hq]
    obtain ⟨hb, h0, h1, h2, h3⟩ := hInv
    rw [if_pos hleaf]
    exact tryMerge_StraddleInv getBox ⟨hb, h0, h1, h2, ih h3⟩
  | case9 c0 c1 c2 c3 vs box v hLt hq hleaf ih =>
    intro hInv
    rw [remove]
    simp only [hq]
    obtain ⟨hb, h0, h1, h2, h3⟩ := hInv
    rw [if_neg hleaf]
    exact ⟨hb, h0, h1, h2, ih h3⟩
  | case10 c0 c1 c2 c3 vs box v m h hq => exact absurd h (by omega)
  | case11 c0 c1 c2 c3 vs box v hq =>
    intro hInv
    rw [remove]
    simp only [hq]
    obtain ⟨hb, h0, h1, h2, h3⟩ := hInv
    exact ⟨fun w hw => hb w (removeValue_subset eqv vs v w hw), h0, h1, h2, h3⟩

/-- C5 counterexample: in a reachable tree the root is interior and
retains in its bucket an item whose box is contained (with the non-strict
contains of Box::contains) in the north-west child region: the item's
right and bottom edges lie exactly on the center lines, so getQuadrant
classifies it as straddling even though a descendant region fully
contains it.  This refutes the claim that no descendant region fully
contains a retained item. -/
theorem c5_straddle_counterexample :
    Reachable gbQ evQ w2Q treeC5 ∧ treeC5.isLeaf = false ∧
    straddlerQ ∈ treeC5.values ∧ (computeBox w2Q 0).contains (gbQ straddlerQ) :=
  ⟨treeC5_reachable, by with_unfolding_all decide,
    by with_unfolding_all decide, by with_unfolding_all decide⟩

/-- C5 amended: in every tree reached from the fresh tree by add and
remove operations on items contained in the world box, every item
retained in an interior node's bucket straddles a child boundary in the
classifier's sense: getQuadrant returns none for it, i.e. no child
quadrant contains it under the source's mixed strict comparisons (a box
that merely touches a center line from the inside may still be contained
non-strictly in a child region). -/
theorem c5_straddle_strict {eqv : T → T → Bool} {world : Box F} {n : Node T}
    (hr : Reachable getBox eqv world n) : StraddleInv getBox world n := by
  induction hr with
  | init => trivial
  | addOp n v _ _ ih => exact add_StraddleInv getBox n 0 world v ih
  | removeOp n v _ _ ih => exact remove_StraddleInv getBox eqv n world v ih

theorem c5_straddle_strict_witness : StraddleInv gbQ w2Q treeC5 :=
  c5_straddle_strict gbQ treeC5_reachable

/-- C7 counterexample: the freshly constructed tree is reachable, yet a
query box that lies entirely outside the world box already violates the
assert at the root call of the private query (which requires
queryBox.intersects(nodeBox)), so query does not run assertion-free for
every query box. -/
theorem c7_query_assert_counterexample :
    Reachable gbQ evQ worldQ (.leaf []) ∧
    ¬ queryAssertOk (T := ItmQ) (.leaf []) worldQ ⟨200, 200, 1, 1⟩ :=
  ⟨Reachable.init, by with_unfolding_all decide⟩

/-- C7 amended: query violates no internal assertion provided the query
box intersects the world box (every recursively visited child then
satisfies its entry assert as well); and for a query box that does not
intersect the world box the root assert fails, but the computed result is
still the empty sequence on any reachable tree with a well-formed world
box. -/
theorem c7_query_asserts :
    (∀ (n : Node T) (box qb : Box F), qb.intersects box →
      queryAssertOk n box qb) ∧
    (∀ (eqv : T → T → Bool) (world qb : Box F) (n : Node T),
      0 ≤ world.width → 0 ≤ world.height →
      Reachable getBox eqv world n → ¬ qb.intersects world →
      query getBox n world qb = []) := by
  constructor
  · intro n
    induction n with
    | leaf vs => intro box qb hI; exact hI
    | inner c0 c1 c2 c3 vs ih0 ih1 ih2 ih3 =>
      intro box qb hI
      exact ⟨hI, fun h => ih0 _ _ h, fun h => ih1 _ _ h,
        fun h => ih2 _ _ h, fun h => ih3 _ _ h⟩
  · intro eqv world qb n hw hh hr hni
    rw [query_eq_filter getBox hw hh (Reachable_Inv getBox eqv hw hh hr)]
    exact filter_allValues_eq_nil getBox hw hh
      (Reachable_Inv getBox eqv hw hh hr) hni

theorem c7_query_asserts_witness :
    queryAssertOk treeQ3 worldQ ⟨0, 0, 45, 45⟩ ∧
    query gbQ treeQ3 worldQ ⟨200, 200, 1, 1⟩ = [] :=
  ⟨(c7_query_asserts gbQ).1 treeQ3 worldQ _ (by with_unfolding_all decide),
    (c7_query_asserts gbQ).2 evQ worldQ _ treeQ3
      (by with_unfolding_all decide) (by with_unfolding_all decide)
      treeQ3_reachable (by with_unfolding_all decide)⟩

theorem split_coe {box : Box F} : ∀ vs : List T,
    (↑((split getBox box vs).allValues) : Multiset T) = ↑vs := by
  intro vs
  induction vs with
  | nil => rfl
  | cons v rest ih =>
    simp only [split, Node.allValues, List.filter_cons] at ih ⊢
    rcases hq : getQuadrant box (getBox v) with _ | ⟨iv, hlt⟩
    · simp only [hq, reduceCtorEq, decide_False, decide_True, Bool.false_eq_true,
        eq_self_iff_true, if_false, if_true]
      simp only [← Multiset.cons_coe, ← Multiset.coe_add, Multiset.cons_add] at ih ⊢
      rw [← ih]
    · interval_cases iv <;>
        simp only [show ∀ h : 0 < 4, (⟨0, h⟩ : Fin 4) = 0 from fun _ => rfl,
          show ∀ h : 1 < 4, (⟨1, h⟩ : Fin 4) = 1 from fun _ => rfl,
          show ∀ h : 2 < 4, (⟨2, h⟩ : Fin 4) = 2 from fun _ => rfl,
          show ∀ h : 3 < 4, (⟨3, h⟩ : Fin 4) = 3 from fun _ => rfl,
          show ((0:Fin 4) = 1) = False by simp, show ((0:Fin 4) = 2) = False by simp,
          show ((0:Fin 4) = 3) = False by simp, show ((1:Fin 4) = 0) = False by simp,
          show ((1:Fin 4) = 2) = False by simp, show ((1:Fin 4) = 3) = False by simp,
          show ((2:Fin 4) = 0) = False by simp, show ((2:Fin 4) = 1) = False by simp,
          show ((2:Fin 4) = 3) = False by simp, show ((3:Fin 4) = 0) = False by simp,
          show ((3:Fin 4) = 1) = False by simp, show ((3:Fin 4) = 2) = False by simp,
          Option.some.injEq, reduceCtorEq,
          eq_self_iff_true, decide_False, decide_True, Bool.false_eq_true,
          if_false, if_true] <;>
        simp only [← Multiset.cons_coe, ← Multiset.coe_add, Multiset.cons_add,
          Multiset.add_cons] at ih ⊢ <;>
        rw [← ih]

theorem add_coe : ∀ (n : Node T) (depth : ℕ) (box : Box F) (v : T),
    (↑((add getBox n depth box v).allValues) : Multiset T) =
      v ::ₘ ↑(n.allValues) := by
  intro n depth box v
  induction n, depth, box, v using add.induct getBox with
  | case1 vs depth box v hcond =>
    rw [add, if_pos hcond]
    simp only [Node.allValues, ← Multiset.coe_add, ← Multiset.cons_coe]
    rw [← Multiset.singleton_add, add_comm]
    simp [Multiset.singleton_add]
  | case2 vs depth box v hcond ih =>
    rw [add, if_neg hcond]
    rw [ih, split_coe]
    rfl
  | case3 c0 c1 c2 c3 vs depth box v hLt hq ih =>
    rw [add]
    simp only [hq, Node.allValues]
    simp only [← Multiset.coe_add, ih]
    simp only [← Multiset.singleton_add]
    abel
  | case4 c0 c1 c2 c3 vs depth box v hLt hq ih =>
    rw [add]
    simp only [hq, Node.allValues]
    simp only [← Multiset.coe_add, ih]
    simp only [← Multiset.singleton_add]
    abel
  | case5 c0 c1 c2 c3 vs depth box v hLt hq ih =>
    rw [add]
    simp only [hq, Node.allValues]
    simp only [← Multiset.coe_add, ih]
    simp only [← Multiset.singleton_add]
    abel
  | case6 c0 c1 c2 c3 vs depth box v hLt hq ih =>
    rw [add]
    simp only [hq, Node.allValues]
    simp only [← Multiset.coe_add, ih]
    simp only [← Multiset.singleton_add]
    abel
  | case7 c0 c1 c2 c3 vs depth box v m h hq => exact absurd h (by omega)
  | case8 c0 c1 c2 c3 vs depth box v hq =>
    rw [add]
    simp only [hq, Node.allValues]
    simp only [← Multiset.coe_add, ← Multiset.cons_coe, ← Multiset.singleton_add]
    abel

theorem tryMerge_allValues (n : Node T) : (tryMerge n).allValues = n.allValues := by
  unfold tryMerge
  split
  · split
    · rfl
    · rfl
  · rfl

theorem Findable_mem {eqv : T → T → Bool}
    (heqv : ∀ a b, eqv a b = true ↔ a = b) :
    ∀ (n : Node T) (box : Box F) (v : T),
    Findable getBox eqv n box v → v ∈ n.allValues := by
  intro n
  induction n with
  | leaf vs =>
    intro box v h
    obtain ⟨r, hr, he⟩ := h
    rw [(heqv v r).1 he]
    exact hr
  | inner c0 c1 c2 c3 vs ih0 ih1 ih2 ih3 =>
    intro box v h
    simp only [Node.allValues, List.mem_append]
    rcases hq : getQuadrant box (getBox v) with _ | ⟨iv, hlt⟩ <;>
      simp only [Findable, hq] at h
    · obtain ⟨r, hr, he⟩ := h
      rw [(heqv v r).1 he]
      exact Or.inl hr
    · interval_cases iv
      · exact Or.inr (Or.inl (Or.inl (Or.inl (ih0 _ v h))))
      · exact Or.inr (Or.inl (Or.inl (Or.inr (ih1 _ v h))))
      · exact Or.inr (Or.inl (Or.inr (ih2 _ v h)))
      · exact Or.inr (Or.inr (ih3 _ v h))

theorem add_Findable {eqv : T → T → Bool} :
    ∀ (n : Node T) (depth : ℕ) (box : Box F) (v : T), eqv v v = true →
    Findable getBox eqv (add getBox n depth box v) box v := by
  intro n depth box v
  induction n, depth, box, v using add.induct getBox with
  | case1 vs depth box v hcond =>
    intro hrefl
    rw [add, if_pos hcond]
    exact ⟨v, by simp, hrefl⟩
  | case2 vs depth box v hcond ih =>
    intro hrefl
    rw [add, if_neg hcond]
    exact ih hrefl
  | case3 c0 c1 c2 c3 vs depth box v hLt hq ih =>
    intro hrefl
    rw [add]
    simp only [hq, Findable]
    exact ih hrefl
  | case4 c0 c1 c2 c3 vs depth box v hLt hq ih =>
    intro hrefl
    rw [add]
    simp only [hq, Findable]
    exact ih hrefl
  | case5 c0 c1 c2 c3 vs depth box v hLt hq ih =>
    intro hrefl
    rw [add]
    simp only [hq, Findable]
    exact ih hrefl
  | case6 c0 c1 c2 c3 vs depth box v hLt hq ih =>
    intro hrefl
    rw [add]
    simp only [hq, Findable]
    exact ih hrefl
  | case7 c0 c1 c2 c3 vs depth box v m h hq => exact absurd h (by omega)
  | case8 c0 c1 c2 c3 vs depth box v hq =>
    intro hrefl
    rw [add]
    simp only [hq, Findable]
    exact ⟨v, by simp, hrefl⟩

theorem removeValue_coe [DecidableEq T] {eqv : T → T → Bool}
    (heqv : ∀ a b, eqv a b = true ↔ a = b) :
    ∀ (vs : List T) (v : T), v ∈ vs →
    (↑(removeValue eqv vs v) : Multiset T) = (↑vs : Multiset T).erase v := by
  intro vs
  induction vs with
  | nil => intro v hv; cases hv
  | cons a rest ih =>
    intro v hv
    by_cases hva : v = a
    · cases rest with
      | nil =>
        subst hva
        have hred : removeValue eqv [v] v = [] := by
          unfold removeValue
          rw [List.findIdx?_cons, if_pos ((heqv v v).2 rfl)]
          rfl
        rw [hred]
        simp
      | cons b rest2 =>
        have hne : (b :: rest2) ≠ [] := by simp
        have hlast : (a :: b :: rest2).getLast? = some ((b :: rest2).getLast hne) := by
          rw [List.getLast?_eq_getLast (a :: b :: rest2) (by simp),
            List.getLast_cons hne]
        have hred : removeValue eqv (a :: b :: rest2) v =
            ((b :: rest2).getLast hne) :: (b :: rest2).dropLast := by
          unfold removeValue
          rw [List.findIdx?_cons, if_pos ((heqv v a).2 hva), hlast]
          rfl
        rw [hred]
        subst hva
        rw [← Multiset.cons_coe, ← Multiset.cons_coe, Multiset.erase_cons_head,
          Multiset.cons_coe, Multiset.coe_eq_coe]
        refine List.Perm.trans (List.perm_append_singleton _ _).symm ?_
        rw [List.dropLast_append_getLast hne]
    · have hEq : eqv v a = false := by
        rcases h2 : eqv v a with _ | _
        · rfl
        · exact absurd ((heqv v a).1 h2) hva
      have hvr : v ∈ rest := by
        rcases List.mem_cons.1 hv with h | h
        · exact absurd h hva
        · exact h
      have hne : rest ≠ [] := List.ne_nil_of_mem hvr
      have hlast2 : (a :: rest).getLast? = some (rest.getLast hne) := by
        rw [List.getLast?_eq_getLast (a :: rest) (by simp), List.getLast_cons hne]
      rcases hfind : List.findIdx? (fun r => eqv v r) rest with _ | j
      · exfalso
        have hc := (List.findIdx?_eq_none_iff.1 hfind) v hvr
        rw [(heqv v v).2 rfl] at hc
        cases hc
      · have hsetne : rest.set j (rest.getLast hne) ≠ [] := by
          intro hcon
          have hlen := congrArg List.length hcon
          simp at hlen
          exact hne hlen
        have hred : removeValue eqv (a :: rest) v =
            a :: (rest.set j (rest.getLast hne)).dropLast := by
          unfold removeValue
          rw [List.findIdx?_cons]
          simp only [hEq, Bool.false_eq_true, if_false]
          rw [List.findIdx?_succ, hfind]
          simp only [Option.map_some', hlast2]
          rw [List.set_cons_succ, List.dropLast_cons_of_ne_nil hsetne]
        have hrv : removeValue eqv rest v =
            (rest.set j (rest.getLast hne)).dropLast := by
          unfold removeValue
          rw [hfind, List.getLast?_eq_getLast rest hne]
        rw [hred, ← hrv]
        rw [← Multiset.cons_coe, ih v hvr, ← Multiset.cons_coe]
        rw [Multiset.erase_cons_tail _ (fun h => hva h.symm)]

theorem remove_coe [DecidableEq T] {eqv : T → T → Bool}
    (heqv : ∀ a b, eqv a b = true ↔ a = b) :
    ∀ (n : Node T) (box : Box F) (v : T), Findable getBox eqv n box v →
    (↑((remove getBox eqv n box v).allValues) : Multiset T) =
      (↑(n.allValues) : Multiset T).erase v := by
  intro n box v
  induction n, box, v using remove.induct getBox eqv with
  | case1 vs box v =>
    intro hF
    rw [remove]
    obtain ⟨r, hr, he⟩ := hF
    have hvm : v ∈ vs := by rw [(heqv v r).1 he]; exact hr
    exact removeValue_coe heqv vs v hvm
  | case2 c0 c1 c2 c3 vs box v hLt hq hleaf ih =>
    intro hF
    simp only [Findable, hq] at hF
    rw [remove]
    simp only [hq]
    rw [if_pos hleaf]
    rw [show ∀ m : Node T, (↑(tryMerge m).allValues : Multiset T) = ↑m.allValues
      from fun m => by rw [tryMerge_allValues]]
    have hvk : v ∈ (↑(c0.allValues) : Multiset T) :=
      Multiset.mem_coe.2 (Findable_mem getBox heqv c0 _ v hF)
    simp only [Node.allValues, ← Multiset.coe_add]
    rw [ih hF]
    rw [Multiset.erase_add_right_pos _ (by simp only [Multiset.mem_add]; tauto)]
    rw [Multiset.erase_add_left_pos _ (by simp only [Multiset.mem_add]; tauto),
      Multiset.erase_add_left_pos _ (by simp only [Multiset.mem_add]; tauto),
      Multiset.erase_add_left_pos _ hvk]
  | case3 c0 c1 c2 c3 vs box v hLt hq hleaf ih =>
    intro hF
    simp only [Findable, hq] at hF
    rw [remove]
    simp only [hq]
    rw [if_neg hleaf]
    have hvk : v ∈ (↑(c0.allValues) : Multiset T) :=
      Multiset.mem_coe.2 (Findable_mem getBox heqv c0 _ v hF)
    simp only [Node.allValues, ← Multiset.coe_add]
    rw [ih hF]
    rw [Multiset.erase_add_right_pos _ (by simp only [Multiset.mem_add]; tauto)]
    rw [Multiset.erase_add_left_pos _ (by simp only [Multiset.mem_add]; tauto),
      Multiset.erase_add_left_pos _ (by simp only [Multiset.mem_add]; tauto),
      Multiset.erase_add_left_pos _ hvk]
  | case4 c0 c1 c2 c3 vs box v hLt hq hleaf ih =>
    intro hF
    simp only [Findable, hq] at hF
    rw [remove]
    simp only [hq]
    rw [if_pos hleaf]
    rw [show ∀ m : Node T, (↑(tryMerge m).allValues : Multiset T) = ↑m.allValues
      from fun m => by rw [tryMerge_allValues]]
    have hvk : v ∈ (↑(c1.allValues) : Multiset T) :=
      Multiset.mem_coe.2 (Findable_mem getBox heqv c1 _ v hF)
    simp only [Node.allValues, ← Multiset.coe_add]
    rw [ih hF]
    rw [Multiset.erase_add_right_pos _ (by simp only [Multiset.mem_add]; tauto)]
    rw [Multiset.erase_add_left_pos _ (by simp only [Multiset.mem_add]; tauto),
      Multiset.erase_add_left_pos _ (by simp only [Multiset.mem_add]; tauto),
      Multiset.erase_add_right_pos _ hvk]
  | case5 c0 c1 c2 c3 vs box v hLt hq hleaf ih =>
    intro hF
    simp only [Findable, hq] at hF
    rw [remove]
    simp only [hq]
    rw [if_neg hleaf]
    have hvk : v ∈ (↑(c1.allValues) : Multiset T) :=
      Multiset.mem_coe.2 (Findable_mem getBox heqv c1 _ v hF)
    simp only [Node.allValues, ← Multiset.coe_add]
    rw [ih hF]
    rw [Multiset.erase_add_right_pos _ (by simp only [Multiset.mem_add]; tauto)]
    rw [Multiset.erase_add_left_pos _ (by simp only [Multiset.mem_add]; tauto),
      Multiset.erase_add_left_pos _ (by simp only [Multiset.mem_add]; tauto),
      Multiset.erase_add_right_pos _ hvk]
  | case6 c0 c1 c2 c3 vs box v hLt hq hleaf ih =>
    intro hF
    simp only [Findable, hq] at hF
    rw [remove]
    simp only [hq]
    rw [if_pos hleaf]
    rw [show ∀ m : Node T, (↑(tryMerge m).allValues : Multiset T) = ↑m.allValues
      from fun m => by rw [tryMerge_allValues]]
    have hvk : v ∈ (↑(c2.allValues) : Multiset T) :=
      Multiset.mem_coe.2 (Findable_mem getBox heqv c2 _ v hF)
    simp only [Node.allValues, ← Multiset.coe_add]
    rw [ih hF]
    rw [Multiset.erase_add_right_pos _ (by simp only [Multiset.mem_add]; tauto)]
    rw [Multiset.erase_add_left_pos _ (by simp only [Multiset.mem_add]; tauto),
      Multiset.erase_add_right_pos _ hvk]
  | case7 c0 c1 c2 c3 vs box v hLt hq hleaf ih =>
    intro hF
    simp only [Findable, hq] at hF
    rw [remove]
    simp only [hq]
    rw [if_neg hleaf]
    have hvk : v ∈ (↑(c2.allValues) : Multiset T) :=
      Multiset.mem_coe.2 (Findable_mem getBox heqv c2 _ v hF)
    simp only [Node.allValues, ← Multiset.coe_add]
    rw [ih hF]
    rw [Multiset.erase_add_right_pos _ (by simp only [Multiset.mem_add]; tauto)]
    rw [Multiset.erase_add_left_pos _ (by simp only [Multiset.mem_add]; tauto),
      Multiset.erase_add_right_pos _ hvk]
  | case8 c0 c1 c2 c3 vs box v hLt hq hleaf ih =>
    intro hF
    simp only [Findable, hq] at hF
    rw [remove]
    simp only [hq]
    rw [if_pos hleaf]
    rw [show ∀ m : Node T, (↑(tryMerge m).allValues : Multiset T) = ↑m.allValues
      from fun m => by rw [tryMerge_allValues]]
    have hvk : v ∈ (↑(c3.allValues) : Multiset T) :=
      Multiset.mem_coe.2 (Findable_mem getBox heqv c3 _ v hF)
    simp only [Node.allValues, ← Multiset.coe_add]
    rw [ih hF]
    rw [Multiset.erase_add_right_pos _ (by simp only [Multiset.mem_add]; tauto)]
    rw [Multiset.erase_add_right_pos _ hvk]
  | case9 c0 c1 c2 c3 vs box v hLt hq hleaf ih =>
    intro hF
    simp only [Findable, hq] at hF
    rw [remove]
    simp only [hq]
    rw [if_neg hleaf]
    have hvk : v ∈ (↑(c3.allValues) : Multiset T) :=
      Multiset.mem_coe.2 (Findable_mem getBox heqv c3 _ v hF)
    simp only [Node.allValues, ← Multiset.coe_add]
    rw [ih hF]
    rw [Multiset.erase_add_right_pos _ (by simp only [Multiset.mem_add]; tauto)]
    rw [Multiset.erase_add_right_pos _ hvk]
  | case10 c0 c1 c2 c3 vs box v m h hq => exact absurd h (by omega)
  | case11 c0 c1 c2 c3 vs box v hq =>
    intro hF
    simp only [Findable, hq] at hF
    rw [remove]
    simp only [hq]
    obtain ⟨r, hr, he⟩ := hF
    have hvm : v ∈ vs := by rw [(heqv v r).1 he]; exact hr
    simp only [Node.allValues, ← Multiset.coe_add]
    rw [removeValue_coe heqv vs v hvm]
    rw [Multiset.erase_add_left_pos _ (Multiset.mem_coe.2 hvm)]

/-- C8: round-trip: on any reachable tree, adding an item whose box is
contained in the world box and then removing it (with the equality
predicate a true equality) restores the stored-item multiset exactly; the
structural shape of the tree is not constrained. -/
theorem c8_roundtrip {eqv : T → T → Bool} (heqv : ∀ a b, eqv a b = true ↔ a = b)
    {world : Box F} {n : Node T} {v : T}
    (hr : Reachable getBox eqv world n) (hv : world.contains (getBox v)) :
    (↑((remove getBox eqv (add getBox n 0 world v) world v).allValues) : Multiset T) =
      ↑(n.allValues) := by
  haveI : DecidableEq T := fun a b => decidable_of_iff _ (heqv a b)
  rw [remove_coe getBox heqv _ _ _ (add_Findable getBox _ 0 world v ((heqv v v).2 rfl))]
  rw [add_coe]
  exact Multiset.erase_cons_head v _

theorem c8_roundtrip_witness :
    worldQ.contains (gbQ (4, ⟨50, 50, 3, 3⟩)) ∧
    (↑((remove gbQ evQ (add gbQ treeQ3 0 worldQ (4, ⟨50, 50, 3, 3⟩)) worldQ
        (4, ⟨50, 50, 3, 3⟩)).allValues) : Multiset ItmQ) = ↑(treeQ3.allValues) :=
  ⟨by with_unfolding_all decide,
    c8_roundtrip gbQ (fun a b => by simp [evQ]) treeQ3_reachable
      (by with_unfolding_all decide)⟩

theorem distance_eq_gaps {a b : Box ℝ} (haw : 0 ≤ a.width) (hah : 0 ≤ a.height)
    (hbw : 0 ≤ b.width) (hbh : 0 ≤ b.height) :
    distance Real.sqrt a b =
      Real.sqrt (gapX a b * gapX a b + gapY a b * gapY a b) := by
  simp only [distance]
  split_ifs
  · next h1 =>
    have hgx : gapX a b = b.left - (a.left + a.width) := by
      unfold gapX
      rw [max_eq_left (show a.left - (b.left + b.width) ≤ b.left - (a.left + a.width) by linarith [h1.1])]
      exact max_eq_right (by linarith [h1.1])
    have hgy : gapY a b = b.top - (a.top + a.height) := by
      unfold gapY
      rw [max_eq_left (show a.top - (b.top + b.height) ≤ b.top - (a.top + a.height) by linarith [h1.2])]
      exact max_eq_right (by linarith [h1.2])
    rw [hgx, hgy]
  · next h1 h2 =>
    have hgx : gapX a b = a.left - (b.left + b.width) := by
      unfold gapX
      rw [max_eq_right (show b.left - (a.left + a.width) ≤ a.left - (b.left + b.width) by linarith [h2.1])]
      exact max_eq_right (by linarith [h2.1])
    have hgy : gapY a b = b.top - (a.top + a.height) := by
      unfold gapY
      rw [max_eq_left (show a.top - (b.top + b.height) ≤ b.top - (a.top + a.height) by linarith [h2.2])]
      exact max_eq_right (by linarith [h2.2])
    rw [hgx, hgy]
  · next h1 h2 h3 =>
    have hgx : gapX a b = a.left - (b.left + b.width) := by
      unfold gapX
      rw [max_eq_right (show b.left - (a.left + a.width) ≤ a.left - (b.left + b.width) by linarith [h3.1])]
      exact max_eq_right (by linarith [h3.1])
    have hgy : gapY a b = a.top - (b.top + b.height) := by
      unfold gapY
      rw [max_eq_right (show b.top - (a.top + a.height) ≤ a.top - (b.top + b.height) by linarith [h3.2])]
      exact max_eq_right (by linarith [h3.2])
    rw [hgx, hgy]
  · next h1 h2 h3 h4 =>
    have hgx : gapX a b = b.left - (a.left + a.width) := by
      unfold gapX
      rw [max_eq_left (show a.left - (b.left + b.width) ≤ b.left - (a.left + a.width) by linarith [h4.1])]
      exact max_eq_right (by linarith [h4.1])
    have hgy : gapY a b = a.top - (b.top + b.height) := by
      unfold gapY
      rw [max_eq_right (show b.top - (a.top + a.height) ≤ a.top - (b.top + b.height) by linarith [h4.2])]
      exact max_eq_right (by linarith [h4.2])
    rw [hgx, hgy]
  · next h1 h2 h3 h4 h5 =>
    have hN : b.top ≤ a.top + a.height := by
      by_contra hc
      exact h1 ⟨h5, by linarith⟩
    have hS : a.top ≤ b.top + b.height := by
      by_contra hc
      exact h4 ⟨h5, by linarith⟩
    have hgx : gapX a b = b.left - (a.left + a.width) := by
      unfold gapX
      rw [max_eq_left (show a.left - (b.left + b.width) ≤ b.left - (a.left + a.width) by linarith [h5])]
      exact max_eq_right (by linarith [h5])
    have hgy : gapY a b = 0 := by
      unfold gapY
      rw [max_eq_left (max_le (by linarith [hN, hS]) (by linarith [hN, hS]))]
    rw [hgx, hgy]
    rw [mul_zero, add_zero, Real.sqrt_mul_self (by linarith [h5])]
  · next h1 h2 h3 h4 h5 h6 =>
    have hW : b.left ≤ a.left + a.width := not_lt.1 h5
    have hE : a.left ≤ b.left + b.width := by
      by_contra hc
      exact h2 ⟨by linarith, h6⟩
    have hgx : gapX a b = 0 := by
      unfold gapX
      rw [max_eq_left (max_le (by linarith [hW, hE]) (by linarith [hW, hE]))]
    have hgy : gapY a b = b.top - (a.top + a.height) := by
      unfold gapY
      rw [max_eq_left (show a.top - (b.top + b.height) ≤ b.top - (a.top + a.height) by linarith [h6])]
      exact max_eq_right (by linarith [h6])
    rw [hgx, hgy]
    rw [mul_zero, zero_add, Real.sqrt_mul_self (by linarith [h6])]
  · next h1 h2 h3 h4 h5 h6 h7 =>
    have hN : b.top ≤ a.top + a.height := not_lt.1 h6
    have hS : a.top ≤ b.top + b.height := by
      by_contra hc
      exact h3 ⟨h7, by linarith⟩
    have hgx : gapX a b = a.left - (b.left + b.width) := by
      unfold gapX
      rw [max_eq_right (show b.left - (a.left + a.width) ≤ a.left - (b.left + b.width) by linarith [h7])]
      exact max_eq_right (by linarith [h7])
    have hgy : gapY a b = 0 := by
      unfold gapY
      rw [max_eq_left (max_le (by linarith [hN, hS]) (by linarith [hN, hS]))]
    rw [hgx, hgy]
    rw [mul_zero, add_zero, Real.sqrt_mul_self (by linarith [h7])]
  · next h1 h2 h3 h4 h5 h6 h7 h8 =>
    have hW : b.left ≤ a.left + a.width := not_lt.1 h5
    have hE : a.left ≤ b.left + b.width := not_lt.1 h7
    have hgx : gapX a b = 0 := by
      unfold gapX
      rw [max_eq_left (max_le (by linarith [hW, hE]) (by linarith [hW, hE]))]
    have hgy : gapY a b = a.top - (b.top + b.height) := by
      unfold gapY
      rw [max_eq_right (show b.top - (a.top + a.height) ≤ a.top - (b.top + b.height) by linarith [h8])]
      exact max_eq_right (by linarith [h8])
    rw [hgx, hgy]
    rw [mul_zero, zero_add, Real.sqrt_mul_self (by linarith [h8])]
  · next h1 h2 h3 h4 h5 h6 h7 h8 =>
    have hW : b.left ≤ a.left + a.width := not_lt.1 h5
    have hE : a.left ≤ b.left + b.width := not_lt.1 h7
    have hN : b.top ≤ a.top + a.height := not_lt.1 h6
    have hS : a.top ≤ b.top + b.height := not_lt.1 h8
    have hgx : gapX a b = 0 := by
      unfold gapX
      rw [max_eq_left (max_le (by linarith [hW, hE]) (by linarith [hW, hE]))]
    have hgy : gapY a b = 0 := by
      unfold gapY
      rw [max_eq_left (max_le (by linarith [hN, hS]) (by linarith [hN, hS]))]
    rw [hgx, hgy]
    rw [mul_zero, add_zero, Real.sqrt_zero]

theorem gapX_eq_zero {a b : Box ℝ}
    (h : ¬(a.left + a.width < b.left ∨ b.left + b.width < a.left)) :
    gapX a b = 0 := by
  push_neg at h
  unfold gapX
  rw [max_eq_left (max_le (by linarith [h.1]) (by linarith [h.2]))]

theorem gapY_eq_zero {a b : Box ℝ}
    (h : ¬(a.top + a.height < b.top ∨ b.top + b.height < a.top)) :
    gapY a b = 0 := by
  push_neg at h
  unfold gapY
  rw [max_eq_left (max_le (by linarith [h.1]) (by linarith [h.2]))]

theorem gapX_pos {a b : Box ℝ}
    (h : a.left + a.width < b.left ∨ b.left + b.width < a.left) :
    0 < gapX a b := by
  unfold gapX
  rcases h with h | h
  · simp only [lt_max_iff]
    exact Or.inr (Or.inl (by linarith))
  · simp only [lt_max_iff]
    exact Or.inr (Or.inr (by linarith))

theorem gapY_pos {a b : Box ℝ}
    (h : a.top + a.height < b.top ∨ b.top + b.height < a.top) :
    0 < gapY a b := by
  unfold gapY
  rcases h with h | h
  · simp only [lt_max_iff]
    exact Or.inr (Or.inl (by linarith))
  · simp only [lt_max_iff]
    exact Or.inr (Or.inr (by linarith))

/-- C9: distance returns exactly 0 when the boxes overlap or touch (no
strict separation on either axis); when they are strictly separated on
one axis only it returns the positive axial gap; when separated on both
axes it returns the Euclidean corner-to-corner distance
sqrt(gapX^2 + gapY^2) with both gaps positive; and it matches the spec's
literal cases distance(Box(10,10,10,10), Box(40,15,10,10)) = 20 and
distance(Box(10,10,10,10), Box(30,30,10,10)) = sqrt 200. -/
theorem c9_distance_cases :
    (∀ a b : Box ℝ, 0 ≤ a.width → 0 ≤ a.height → 0 ≤ b.width → 0 ≤ b.height →
      (¬(a.left + a.width < b.left ∨ b.left + b.width < a.left) →
        ¬(a.top + a.height < b.top ∨ b.top + b.height < a.top) →
        distance Real.sqrt a b = 0) ∧
      ((a.left + a.width < b.left ∨ b.left + b.width < a.left) →
        ¬(a.top + a.height < b.top ∨ b.top + b.height < a.top) →
        distance Real.sqrt a b = gapX a b ∧ 0 < gapX a b) ∧
      (¬(a.left + a.width < b.left ∨ b.left + b.width < a.left) →
        (a.top + a.height < b.top ∨ b.top + b.height < a.top) →
        distance Real.sqrt a b = gapY a b ∧ 0 < gapY a b) ∧
      ((a.left + a.width < b.left ∨ b.left + b.width < a.left) →
        (a.top + a.height < b.top ∨ b.top + b.height < a.top) →
        distance Real.sqrt a b =
          Real.sqrt (gapX a b * gapX a b + gapY a b * gapY a b) ∧
          0 < gapX a b ∧ 0 < gapY a b)) ∧
    distance Real.sqrt (⟨10, 10, 10, 10⟩ : Box ℝ) ⟨40, 15, 10, 10⟩ = 20 ∧
    distance Real.sqrt (⟨10, 10, 10, 10⟩ : Box ℝ) ⟨30, 30, 10, 10⟩ =
      Real.sqrt 200 := by
  refine ⟨?_, ?_, ?_⟩
  · intro a b haw hah hbw hbh
    rw [distance_eq_gaps haw hah hbw hbh]
    refine ⟨?_, ?_, ?_, ?_⟩
    · intro hx hy
      rw [gapX_eq_zero hx, gapY_eq_zero hy]
      simp
    · intro hx hy
      rw [gapY_eq_zero hy]
      have hp := gapX_pos (a := a) (b := b) hx
      rw [mul_zero, add_zero, Real.sqrt_mul_self (le_of_lt hp)]
      exact ⟨rfl, hp⟩
    · intro hx hy
      rw [gapX_eq_zero hx]
      have hp := gapY_pos (a := a) (b := b) hy
      rw [mul_zero, zero_add, Real.sqrt_mul_self (le_of_lt hp)]
      exact ⟨rfl, hp⟩
    · intro hx hy
      exact ⟨rfl, gapX_pos hx, gapY_pos hy⟩
  · norm_num [distance]
  · norm_num [distance]

theorem c9_distance_cases_witness :
    distance Real.sqrt (⟨10, 10, 10, 10⟩ : Box ℝ) ⟨15, 15, 10, 10⟩ = 0 :=
  (c9_distance_cases.1 _ _ (by norm_num) (by norm_num) (by norm_num)
    (by norm_num)).1 (by norm_num) (by norm_num)

/-- C10: distance is symmetric for boxes of non-negative width and
height, even though the source's nine-region case analysis is written
asymmetrically in its two arguments. -/
theorem c10_distance_symm (a b : Box ℝ) (haw : 0 ≤ a.width)
    (hah : 0 ≤ a.height) (hbw : 0 ≤ b.width) (hbh : 0 ≤ b.height) :
    distance Real.sqrt a b = distance Real.sqrt b a := by
  rw [distance_eq_gaps haw hah hbw hbh, distance_eq_gaps hbw hbh haw hah]
  have hx : gapX a b = gapX b a := by
    unfold gapX
    rw [max_comm (b.left - (a.left + a.width)) (a.left - (b.left + b.width))]
  have hy : gapY a b = gapY b a := by
    unfold gapY
    rw [max_comm (b.top - (a.top + a.height)) (a.top - (b.top + b.height))]
  rw [hx, hy]

theorem c10_distance_symm_witness :
    distance Real.sqrt (⟨0, 0, 1, 1⟩ : Box ℝ) ⟨5, 0, 1, 1⟩ =
      distance Real.sqrt (⟨5, 0, 1, 1⟩ : Box ℝ) ⟨0, 0, 1, 1⟩ :=
  c10_distance_symm _ _ (by norm_num) (by norm_num) (by norm_num) (by norm_num)

theorem symPairs_nil : symPairs (T := T) [] = 0 := rfl

theorem symPairs_cons (p : T × T) (l : List (T × T)) :
    symPairs (p :: l) = Sym2.mk p ::ₘ symPairs l := rfl

theorem symPairs_append (l1 l2 : List (T × T)) :
    symPairs (l1 ++ l2) = symPairs l1 + symPairs l2 := by
  unfold symPairs
  rw [List.map_append]
  exact (Multiset.coe_add _ _).symm

theorem crossPairs_nil_right (A : List T) : crossPairs A [] = [] := by
  induction A with
  | nil => rfl
  | cons a A2 ih => simp [crossPairs]

theorem crossPairs_cons_left (a : T) (A B : List T) :
    crossPairs (a :: A) B = B.map (fun b => (a, b)) ++ crossPairs A B := by
  simp [crossPairs]

theorem crossPairs_singleton_right (A : List T) (v : T) :
    crossPairs A [v] = A.map fun a => (a, v) := by
  induction A with
  | nil => rfl
  | cons a A2 ih => simpa [crossPairs] using ih

theorem crossPairs_append_right (A B C : List T) :
    symPairs ((crossPairs A (B ++ C)).filter (interPair getBox)) =
      symPairs ((crossPairs A B).filter (interPair getBox)) +
      symPairs ((crossPairs A C).filter (interPair getBox)) := by
  induction A with
  | nil => rfl
  | cons a A2 ih =>
    rw [crossPairs_cons_left, crossPairs_cons_left, crossPairs_cons_left]
    rw [List.map_append, List.filter_append, List.filter_append,
      List.filter_append, List.filter_append, symPairs_append, symPairs_append,
      symPairs_append, symPairs_append, ih]
    abel

theorem filter_map_pair (v : T) (A : List T) :
    (A.map fun w => (v, w)).filter (interPair getBox) =
      (A.filter fun w => decide ((getBox v).intersects (getBox w))).map
        fun w => (v, w) := by
  rw [List.filter_map]
  rfl

theorem symPairs_map_swap (v : T) (A : List T) :
    symPairs ((A.map fun a => (a, v)).filter (interPair getBox)) =
      symPairs ((A.map fun a => (v, a)).filter (interPair getBox)) := by
  induction A with
  | nil => rfl
  | cons a A2 ih =>
    simp only [List.map_cons, List.filter_cons]
    have he : interPair getBox (a, v) = interPair getBox (v, a) := by
      unfold interPair
      exact decide_eq_decide.2 ⟨Box.intersects_symm, Box.intersects_symm⟩
    rw [he]
    by_cases hc : interPair getBox (v, a) = true
    · rw [if_pos hc, if_pos hc, symPairs_cons, symPairs_cons, ih]
      congr 1
      exact Sym2.eq_swap
    · rw [if_neg hc, if_neg hc, ih]

theorem fid_eq : ∀ (n : Node T) (v : T),
    findIntersectionsInDescendants getBox n v =
      (n.allValues.filter fun w => decide ((getBox v).intersects (getBox w))).map
        fun w => (v, w) := by
  intro n v
  induction n with
  | leaf vs => rfl
  | inner c0 c1 c2 c3 vs ih0 ih1 ih2 ih3 =>
    simp only [findIntersectionsInDescendants, Node.allValues, List.filter_append,
      List.map_append, ih0, ih1, ih2, ih3]

theorem nodePairs_sym : ∀ (l prev : List T),
    symPairs (nodePairs getBox prev l) =
      symPairs ((crossPairs l prev).filter (interPair getBox)) +
      symPairs ((pairsOf l).filter (interPair getBox)) := by
  intro l
  induction l with
  | nil => intro prev; simp [nodePairs, crossPairs, pairsOf, symPairs_nil]
  | cons v rest ih =>
    intro prev
    have hstep : nodePairs getBox prev (v :: rest) =
        ((prev.filter fun w => decide ((getBox v).intersects (getBox w))).map
          fun w => (v, w)) ++ nodePairs getBox (prev ++ [v]) rest := rfl
    rw [hstep, symPairs_append, ih (prev ++ [v])]
    rw [crossPairs_append_right getBox rest prev [v]]
    rw [crossPairs_singleton_right, symPairs_map_swap getBox v rest]
    rw [show pairsOf (v :: rest) = (rest.map fun w => (v, w)) ++ pairsOf rest from rfl]
    rw [crossPairs_cons_left]
    rw [List.filter_append, List.filter_append, symPairs_append, symPairs_append]
    rw [← filter_map_pair getBox v prev]
    abel

theorem crossPairs_append_left (X Y Z : List T) :
    crossPairs (X ++ Y) Z = crossPairs X Z ++ crossPairs Y Z := by
  simp [crossPairs]

theorem pairsOf_append_sym : ∀ (A B : List T),
    symPairs ((pairsOf (A ++ B)).filter (interPair getBox)) =
      symPairs ((pairsOf A).filter (interPair getBox)) +
      symPairs ((pairsOf B).filter (interPair getBox)) +
      symPairs ((crossPairs A B).filter (interPair getBox)) := by
  intro A
  induction A with
  | nil =>
    intro B
    simp [pairsOf, crossPairs, symPairs_nil]
  | cons a A2 ih =>
    intro B
    rw [show (a :: A2) ++ B = a :: (A2 ++ B) from rfl]
    rw [show pairsOf (a :: (A2 ++ B)) =
      ((A2 ++ B).map fun w => (a, w)) ++ pairsOf (A2 ++ B) from rfl]
    rw [show pairsOf (a :: A2) = (A2.map fun w => (a, w)) ++ pairsOf A2 from rfl]
    rw [crossPairs_cons_left]
    rw [List.map_append]
    simp only [List.filter_append, symPairs_append]
    rw [ih B]
    abel

theorem fid_flat : ∀ (vs : List T) (c : Node T),
    symPairs (vs.flatMap fun v => findIntersectionsInDescendants getBox c v) =
      symPairs ((crossPairs vs c.allValues).filter (interPair getBox)) := by
  intro vs c
  induction vs with
  | nil => rfl
  | cons v vs2 ih =>
    rw [List.flatMap_cons, symPairs_append, ih, fid_eq, crossPairs_cons_left,
      List.filter_append, symPairs_append, ← filter_map_pair]

theorem cross_children_vanish {box : Box F} {ci cj : Node T} {i j : Fin 4}
    (hij : i ≠ j) (hw : 0 ≤ box.width) (hh : 0 ≤ box.height)
    (hIi : Inv getBox (computeBox box i) ci)
    (hIj : Inv getBox (computeBox box j) cj) :
    (crossPairs ci.allValues cj.allValues).filter (interPair getBox) = [] := by
  rw [List.filter_eq_nil_iff]
  intro p hp
  simp only [crossPairs, List.mem_flatMap, List.mem_map] at hp
  obtain ⟨a, ha, b, hb, rfl⟩ := hp
  simp only [interPair, decide_eq_true_eq]
  intro hint
  have hca := Inv_allValues_contains getBox (computeBox_nonneg hw hh i).1
    (computeBox_nonneg hw hh i).2 hIi a ha
  have hcb := Inv_allValues_contains getBox (computeBox_nonneg hw hh j).1
    (computeBox_nonneg hw hh j).2 hIj b hb
  have h1 : (getBox a).intersects (computeBox box j) :=
    Box.intersects_of_contains hcb hint
  have h2 : (computeBox box j).intersects (computeBox box i) :=
    Box.intersects_of_contains hca (Box.intersects_symm h1)
  exact computeBox_disjoint hw hh (Ne.symm hij) h2

theorem pairsOf_five (vs A0 A1 A2 A3 : List T) :
    symPairs ((pairsOf (vs ++ (A0 ++ A1 ++ A2 ++ A3))).filter (interPair getBox)) =
      symPairs ((pairsOf vs).filter (interPair getBox)) +
      (symPairs ((pairsOf A0).filter (interPair getBox)) +
       symPairs ((pairsOf A1).filter (interPair getBox)) +
       symPairs ((pairsOf A2).filter (interPair getBox)) +
       symPairs ((pairsOf A3).filter (interPair getBox))) +
      (symPairs ((crossPairs vs A0).filter (interPair getBox)) +
       symPairs ((crossPairs vs A1).filter (interPair getBox)) +
       symPairs ((crossPairs vs A2).filter (interPair getBox)) +
       symPairs ((crossPairs vs A3).filter (interPair getBox))) +
      (symPairs ((crossPairs A0 A1).filter (interPair getBox)) +
       symPairs ((crossPairs A0 A2).filter (interPair getBox)) +
       symPairs ((crossPairs A0 A3).filter (interPair getBox)) +
       symPairs ((crossPairs A1 A2).filter (interPair getBox)) +
       symPairs ((crossPairs A1 A3).filter (interPair getBox)) +
       symPairs ((crossPairs A2 A3).filter (interPair getBox))) := by
  rw [pairsOf_append_sym getBox vs (A0 ++ A1 ++ A2 ++ A3)]
  rw [pairsOf_append_sym getBox (A0 ++ A1 ++ A2) A3]
  rw [pairsOf_append_sym getBox (A0 ++ A1) A2]
  rw [pairsOf_append_sym getBox A0 A1]
  rw [crossPairs_append_right getBox vs (A0 ++ A1 ++ A2) A3]
  rw [crossPairs_append_right getBox vs (A0 ++ A1) A2]
  rw [crossPairs_append_right getBox vs A0 A1]
  rw [crossPairs_append_left (A0 ++ A1) A2 A3, crossPairs_append_left A0 A1 A2,
    crossPairs_append_left A0 A1 A3]
  simp only [List.filter_append, symPairs_append]
  abel

theorem findAll_sym : ∀ {n : Node T} {box : Box F},
    0 ≤ box.width → 0 ≤ box.height → Inv getBox box n →
    symPairs (findAllIntersections getBox n) =
      symPairs ((pairsOf n.allValues).filter (interPair getBox)) := by
  intro n
  induction n with
  | leaf vs =>
    intro box hw hh hInv
    rw [show findAllIntersections getBox (.leaf vs) = nodePairs getBox [] vs
      from rfl]
    rw [nodePairs_sym, crossPairs_nil_right]
    simp [symPairs_nil, Node.allValues]
  | inner c0 c1 c2 c3 vs ih0 ih1 ih2 ih3 =>
    intro box hw hh hInv
    obtain ⟨hb, h0, h1, h2, h3⟩ := hInv
    have n0 := @computeBox_nonneg _ _ box hw hh 0
    have n1 := @computeBox_nonneg _ _ box hw hh 1
    have n2 := @computeBox_nonneg _ _ box hw hh 2
    have n3 := @computeBox_nonneg _ _ box hw hh 3
    rw [show findAllIntersections getBox (.inner c0 c1 c2 c3 vs) =
      nodePairs getBox [] vs ++
      ((vs.flatMap fun v => findIntersectionsInDescendants getBox c0 v) ++
       (vs.flatMap fun v => findIntersectionsInDescendants getBox c1 v) ++
       (vs.flatMap fun v => findIntersectionsInDescendants getBox c2 v) ++
       (vs.flatMap fun v => findIntersectionsInDescendants getBox c3 v)) ++
      (findAllIntersections getBox c0 ++ findAllIntersections getBox c1 ++
       findAllIntersections getBox c2 ++ findAllIntersections getBox c3)
      from rfl]
    rw [symPairs_append, symPairs_append, symPairs_append, symPairs_append,
      symPairs_append, symPairs_append, symPairs_append, symPairs_append]
    rw [nodePairs_sym, crossPairs_nil_right]
    rw [fid_flat getBox vs c0, fid_flat getBox vs c1, fid_flat getBox vs c2,
      fid_flat getBox vs c3]
    rw [ih0 n0.1 n0.2 h0, ih1 n1.1 n1.2 h1, ih2 n2.1 n2.2 h2, ih3 n3.1 n3.2 h3]
    rw [show (Node.inner c0 c1 c2 c3 vs).allValues = vs ++
      (c0.allValues ++ c1.allValues ++ c2.allValues ++ c3.allValues) from rfl]
    rw [pairsOf_five]
    rw [cross_children_vanish getBox (show (0:Fin 4) ≠ 1 by decide) hw hh h0 h1,
      cross_children_vanish getBox (show (0:Fin 4) ≠ 2 by decide) hw hh h0 h2,
      cross_children_vanish getBox (show (0:Fin 4) ≠ 3 by decide) hw hh h0 h3,
      cross_children_vanish getBox (show (1:Fin 4) ≠ 2 by decide) hw hh h1 h2,
      cross_children_vanish getBox (show (1:Fin 4) ≠ 3 by decide) hw hh h1 h3,
      cross_children_vanish getBox (show (2:Fin 4) ≠ 3 by decide) hw hh h2 h3]
    simp only [symPairs_nil]
    abel

/-- C3: on every reachable tree (well-formed world box),
findAllIntersections reports, as unordered pairs, exactly the pairs of
distinct stored item occurrences whose boxes intersect, each exactly
once: its output viewed as a multiset of unordered pairs equals the
intersecting pairs of distinct positions of the stored value list. -/
theorem c3_pairs_exact {eqv : T → T → Bool} {world : Box F} {n : Node T}
    (hw : 0 ≤ world.width) (hh : 0 ≤ world.height)
    (hr : Reachable getBox eqv world n) :
    symPairs (findAllIntersections getBox n) =
      symPairs ((pairsOf n.allValues).filter (interPair getBox)) :=
  findAll_sym getBox hw hh (Reachable_Inv getBox eqv hw hh hr)

theorem c3_pairs_exact_witness :
    symPairs (findAllIntersections gbQ treeQ3) =
      symPairs ((pairsOf treeQ3.allValues).filter (interPair gbQ)) :=
  c3_pairs_exact gbQ (by with_unfolding_all decide)
    (by with_unfolding_all decide) treeQ3_reachable

theorem distance_nonneg_real {a b : Box ℝ} (haw : 0 ≤ a.width) (hah : 0 ≤ a.height)
    (hbw : 0 ≤ b.width) (hbh : 0 ≤ b.height) :
    0 ≤ distance Real.sqrt a b := by
  rw [distance_eq_gaps haw hah hbw hbh]
  exact Real.sqrt_nonneg _

theorem distance_symm_real {a b : Box ℝ} (haw : 0 ≤ a.width) (hah : 0 ≤ a.height)
    (hbw : 0 ≤ b.width) (hbh : 0 ≤ b.height) :
    distance Real.sqrt a b = distance Real.sqrt b a := by
  rw [distance_eq_gaps haw hah hbw hbh, distance_eq_gaps hbw hbh haw hah]
  have hx : gapX a b = gapX b a := by
    unfold gapX
    rw [max_comm (b.left - (a.left + a.width)) (a.left - (b.left + b.width))]
  have hy : gapY a b = gapY b a := by
    unfold gapY
    rw [max_comm (b.top - (a.top + a.height)) (a.top - (b.top + b.height))]
  rw [hx, hy]

theorem distance_mono_real {s R b : Box ℝ} (hsw : 0 ≤ s.width) (hsh : 0 ≤ s.height)
    (hRw : 0 ≤ R.width) (hRh : 0 ≤ R.height)
    (hbw : 0 ≤ b.width) (hbh : 0 ≤ b.height) (hc : R.contains b) :
    distance Real.sqrt s R ≤ distance Real.sqrt s b := by
  obtain ⟨c1, c2, c3, c4⟩ := hc
  simp only [Box.getRight, Box.getBottom] at c1 c2 c3 c4
  rw [distance_eq_gaps hsw hsh hRw hRh, distance_eq_gaps hsw hsh hbw hbh]
  have hgx : gapX s R ≤ gapX s b := by
    unfold gapX
    exact max_le_max (le_refl 0)
      (max_le_max (by linarith) (by linarith))
  have hgy : gapY s R ≤ gapY s b := by
    unfold gapY
    exact max_le_max (le_refl 0)
      (max_le_max (by linarith) (by linarith))
  have h0x : (0:ℝ) ≤ gapX s R := le_max_left 0 _
  have h0y : (0:ℝ) ≤ gapY s R := le_max_left 0 _
  exact Real.sqrt_le_sqrt (add_le_add
    (mul_self_le_mul_self h0x hgx) (mul_self_le_mul_self h0y hgy))

theorem travOrder_mem {F : Type} [LinearOrderedField F] {T : Type}
    (searchBox : Box F) : ∀ (n : Node T) (nodeBox : Box F) (x : T),
    x ∈ travOrder searchBox n nodeBox ↔ x ∈ n.allValues := by
  intro n
  induction n with
  | leaf vs =>
    intro nodeBox x
    rw [travOrder, Node.allValues]
  | inner c0 c1 c2 c3 vs ih0 ih1 ih2 ih3 =>
    intro nodeBox x
    rw [travOrder]
    by_cases hrl : searchBox.left * 2 + searchBox.width >
        nodeBox.left * 2 + nodeBox.width <;>
      by_cases hbt : searchBox.top * 2 + searchBox.height >
        nodeBox.top * 2 + nodeBox.height
    · simp only [decide_eq_true hrl, decide_eq_true hbt, Node.allValues,
        List.mem_append, ih0, ih1, ih2, ih3]
      tauto
    · simp only [decide_eq_true hrl, decide_eq_false hbt, Node.allValues,
        List.mem_append, ih0, ih1, ih2, ih3]
      tauto
    · simp only [decide_eq_false hrl, decide_eq_true hbt, Node.allValues,
        List.mem_append, ih0, ih1, ih2, ih3]
      tauto
    · simp only [decide_eq_false hrl, decide_eq_false hbt, Node.allValues,
        List.mem_append, ih0, ih1, ih2, ih3]
      tauto

theorem goodFor_refl {T : Type} (getBox : T → Box ℝ) (pred : T → Box ℝ → Bool)
    (searchBox : Box ℝ) {S : List T} {b : Option T × ℝ}
    (h : ∀ v ∈ S, pred v (getBox v) = true →
      b.2 ≤ distance Real.sqrt (getBox v) searchBox) :
    GoodFor getBox pred searchBox S b b :=
  ⟨le_refl _, h, Or.inl rfl⟩

theorem goodFor_compose {T : Type} {getBox : T → Box ℝ} {pred : T → Box ℝ → Bool}
    {searchBox : Box ℝ} {S1 S2 : List T} {b b1 b2 : Option T × ℝ}
    (h1 : GoodFor getBox pred searchBox S1 b b1)
    (h2 : GoodFor getBox pred searchBox S2 b1 b2) :
    GoodFor getBox pred searchBox (S1 ++ S2) b b2 := by
  obtain ⟨h1a, h1b, h1c⟩ := h1
  obtain ⟨h2a, h2b, h2c⟩ := h2
  refine ⟨le_trans h2a h1a, ?_, ?_⟩
  · intro v hv hp
    rcases List.mem_append.1 hv with hv | hv
    · exact le_trans h2a (h1b v hv hp)
    · exact h2b v hv hp
  · rcases h2c with h2c | ⟨l1, v, l2, hs, hp, he, hlt, hpre⟩
    · subst h2c
      rcases h1c with h1c | ⟨l1, v, l2, hs, hp, he, hlt, hpre⟩
      · exact Or.inl h1c
      · refine Or.inr ⟨l1, v, l2 ++ S2, ?_, hp, he, hlt, hpre⟩
        rw [hs, List.append_assoc, List.cons_append]
    · refine Or.inr ⟨S1 ++ l1, v, l2, ?_, hp, he,
        lt_of_lt_of_le hlt h1a, ?_⟩
      · rw [hs, ← List.append_assoc]
      · intro u hu hup
        rcases List.mem_append.1 hu with hu | hu
        · exact lt_of_lt_of_le hlt (h1b u hu hup)
        · exact hpre u hu hup

theorem foldBest_good {T : Type} (getBox : T → Box ℝ) (pred : T → Box ℝ → Bool)
    (searchBox : Box ℝ) : ∀ (vs : List T) (b : Option T × ℝ),
    GoodFor getBox pred searchBox vs b
      (vs.foldl (fun b itm =>
        let currBox := getBox itm
        let currDist := distance Real.sqrt currBox searchBox
        if currDist < b.2 ∧ pred itm currBox then (some itm, currDist) else b) b) := by
  intro vs
  induction vs with
  | nil =>
    intro b
    exact goodFor_refl getBox pred searchBox (by intro v hv; cases hv)
  | cons itm rest ih =>
    intro b
    set f : (Option T × ℝ) → T → (Option T × ℝ) := fun b itm =>
      let currBox := getBox itm
      let currDist := distance Real.sqrt currBox searchBox
      if currDist < b.2 ∧ pred itm currBox then (some itm, currDist) else b
      with hf
    rw [List.foldl_cons]
    by_cases hstep : distance Real.sqrt (getBox itm) searchBox < b.2 ∧
        pred itm (getBox itm) = true
    · have happ : f b itm =
          (some itm, distance Real.sqrt (getBox itm) searchBox) := by
        simp only [hf]
        exact if_pos hstep
      rw [happ]
      obtain ⟨ha, hb, hc⟩ := ih (some itm, distance Real.sqrt (getBox itm) searchBox)
      refine ⟨le_trans ha (le_of_lt hstep.1), ?_, ?_⟩
      · intro v hv hp
        rcases List.mem_cons.1 hv with hv | hv
        · subst hv; exact ha
        · exact hb v hv hp
      · rcases hc with hc | ⟨l1, v, l2, hs, hp, he, hlt, hpre⟩
        · refine Or.inr ⟨[], itm, rest, rfl, hstep.2, hc, ?_, ?_⟩
          · rw [hc]
            exact hstep.1
          · intro u hu hup
            exact absurd hu (List.not_mem_nil u)
        · refine Or.inr ⟨itm :: l1, v, l2, ?_, hp, he, lt_trans hlt hstep.1, ?_⟩
          · rw [hs, List.cons_append]
          · intro u hu hup
            rcases List.mem_cons.1 hu with hu | hu
            · subst hu
              exact hlt
            · exact hpre u hu hup
    · have happ : f b itm = b := by
        simp only [hf]
        exact if_neg hstep
      rw [happ]
      obtain ⟨ha, hb, hc⟩ := ih b
      refine ⟨ha, ?_, ?_⟩
      · intro v hv hp
        rcases List.mem_cons.1 hv with hv | hv
        · subst hv
          rcases not_and_or.1 hstep with hs | hs
          · exact le_trans ha (not_lt.1 hs)
          · exact absurd hp hs
        · exact hb v hv hp
      · rcases hc with hc | ⟨l1, v, l2, hs, hp, he, hlt, hpre⟩
        · exact Or.inl hc
        · refine Or.inr ⟨itm :: l1, v, l2, ?_, hp, he, hlt, ?_⟩
          · rw [hs, List.cons_append]
          · intro u hu hup
            rcases List.mem_cons.1 hu with hu | hu
            · subst hu
              rcases not_and_or.1 hstep with hs2 | hs2
              · exact lt_of_lt_of_le hlt (not_lt.1 hs2)
              · exact absurd hup hs2
            · exact hpre u hu hup

theorem findClosestImpl_good {T : Type} (getBox : T → Box ℝ) (pred : T → Box ℝ → Bool)
    (searchBox : Box ℝ) (hsw : 0 ≤ searchBox.width) (hsh : 0 ≤ searchBox.height) :
    ∀ (n : Node T) (nodeBox : Box ℝ) (b : Option T × ℝ),
    0 ≤ nodeBox.width → 0 ≤ nodeBox.height →
    Inv getBox nodeBox n → BoxesNonneg getBox n →
    GoodFor getBox pred searchBox (travOrder searchBox n nodeBox) b
      (findClosestImpl getBox Real.sqrt pred searchBox b n nodeBox) := by
  intro n
  induction n with
  | leaf vs =>
    intro nodeBox b hw hh hInv hbn
    rw [findClosestImpl]
    by_cases hpr : distance Real.sqrt searchBox nodeBox > b.2
    · rw [if_pos hpr]
      refine goodFor_refl getBox pred searchBox ?_
      intro v hv0 _
      have hv := (travOrder_mem searchBox _ nodeBox v).1 hv0
      have hcont := Inv_allValues_contains getBox hw hh hInv v hv
      have hvb := hbn v hv
      have hle : distance Real.sqrt searchBox nodeBox ≤
          distance Real.sqrt searchBox (getBox v) :=
        distance_mono_real hsw hsh hw hh hvb.1 hvb.2 hcont
      rw [distance_symm_real hvb.1 hvb.2 hsw hsh]
      linarith
    · rw [if_neg hpr]
      exact foldBest_good getBox pred searchBox vs b
  | inner c0 c1 c2 c3 vs ih0 ih1 ih2 ih3 =>
    intro nodeBox b hw hh hInv hbn
    have n0 := @computeBox_nonneg _ _ nodeBox hw hh 0
    have n1 := @computeBox_nonneg _ _ nodeBox hw hh 1
    have n2 := @computeBox_nonneg _ _ nodeBox hw hh 2
    have n3 := @computeBox_nonneg _ _ nodeBox hw hh 3
    have hbn0 : BoxesNonneg getBox c0 := fun v hv =>
      hbn v (by simp only [Node.allValues, List.mem_append]; tauto)
    have hbn1 : BoxesNonneg getBox c1 := fun v hv =>
      hbn v (by simp only [Node.allValues, List.mem_append]; tauto)
    have hbn2 : BoxesNonneg getBox c2 := fun v hv =>
      hbn v (by simp only [Node.allValues, List.mem_append]; tauto)
    have hbn3 : BoxesNonneg getBox c3 := fun v hv =>
      hbn v (by simp only [Node.allValues, List.mem_append]; tauto)
    rw [findClosestImpl]
    by_cases hpr : distance Real.sqrt searchBox nodeBox > b.2
    · rw [if_pos hpr]
      refine goodFor_refl getBox pred searchBox ?_
      intro v hv0 _
      have hv := (travOrder_mem searchBox _ nodeBox v).1 hv0
      have hcont := Inv_allValues_contains getBox hw hh hInv v hv
      have hvb := hbn v hv
      have hle : distance Real.sqrt searchBox nodeBox ≤
          distance Real.sqrt searchBox (getBox v) :=
        distance_mono_real hsw hsh hw hh hvb.1 hvb.2 hcont
      rw [distance_symm_real hvb.1 hvb.2 hsw hsh]
      linarith
    · rw [if_neg hpr]
      obtain ⟨hbv, h0, h1, h2, h3⟩ := hInv
      have g1 := foldBest_good getBox pred searchBox vs b
      have gc0 : ∀ b', GoodFor getBox pred searchBox
          (travOrder searchBox c0 (computeBox nodeBox 0)) b'
          (findClosestImpl getBox Real.sqrt pred searchBox b' c0
            (computeBox nodeBox 0)) :=
        fun b' => ih0 (computeBox nodeBox 0) b' n0.1 n0.2 h0 hbn0
      have gc1 : ∀ b', GoodFor getBox pred searchBox
          (travOrder searchBox c1 (computeBox nodeBox 1)) b'
          (findClosestImpl getBox Real.sqrt pred searchBox b' c1
            (computeBox nodeBox 1)) :=
        fun b' => ih1 (computeBox nodeBox 1) b' n1.1 n1.2 h1 hbn1
      have gc2 : ∀ b', GoodFor getBox pred searchBox
          (travOrder searchBox c2 (computeBox nodeBox 2)) b'
          (findClosestImpl getBox Real.sqrt pred searchBox b' c2
            (computeBox nodeBox 2)) :=
        fun b' => ih2 (computeBox nodeBox 2) b' n2.1 n2.2 h2 hbn2
      have gc3 : ∀ b', GoodFor getBox pred searchBox
          (travOrder searchBox c3 (computeBox nodeBox 3)) b'
          (findClosestImpl getBox Real.sqrt pred searchBox b' c3
            (computeBox nodeBox 3)) :=
        fun b' => ih3 (computeBox nodeBox 3) b' n3.1 n3.2 h3 hbn3
      rw [travOrder]
      by_cases hrl : searchBox.left * 2 + searchBox.width >
          nodeBox.left * 2 + nodeBox.width <;>
        by_cases hbt : searchBox.top * 2 + searchBox.height >
          nodeBox.top * 2 + nodeBox.height
      · simp only [decide_eq_true hrl, decide_eq_true hbt]
        exact goodFor_compose (goodFor_compose (goodFor_compose
          (goodFor_compose g1 (gc3 _)) (gc2 _)) (gc1 _)) (gc0 _)
      · simp only [decide_eq_true hrl, decide_eq_false hbt]
        exact goodFor_compose (goodFor_compose (goodFor_compose
          (goodFor_compose g1 (gc1 _)) (gc0 _)) (gc3 _)) (gc2 _)
      · simp only [decide_eq_false hrl, decide_eq_true hbt]
        exact goodFor_compose (goodFor_compose (goodFor_compose
          (goodFor_compose g1 (gc2 _)) (gc3 _)) (gc0 _)) (gc1 _)
      · simp only [decide_eq_false hrl, decide_eq_false hbt]
        exact goodFor_compose (goodFor_compose (goodFor_compose
          (goodFor_compose g1 (gc0 _)) (gc1 _)) (gc2 _)) (gc3 _)

/-- C2 counterexample: a reachable non-empty tree (one item added to the
fresh tree, its box contained in the world box) for which findClosest
with the always-true predicate returns null rather than a stored item:
the search box is far enough away that the root region is pruned against
the initial bound abs(width) + abs(height), and no incumbent is ever
set.  This refutes the claim that findClosest on a non-empty tree always
returns a stored item of minimum box-distance. -/
theorem c2_findClosest_counterexample :
    Reachable (Prod.snd : ℕ × Box ℝ → Box ℝ) (fun _ _ => true) (⟨0, 0, 1, 1⟩ : Box ℝ)
      (add Prod.snd (.leaf []) 0 ⟨0, 0, 1, 1⟩ ((7 : ℕ), ⟨0, 0, 1, 1⟩)) ∧
    (add (Prod.snd : ℕ × Box ℝ → Box ℝ) (.leaf []) 0 ⟨0, 0, 1, 1⟩
      ((7 : ℕ), ⟨0, 0, 1, 1⟩)).allValues ≠ [] ∧
    findClosest Prod.snd Real.sqrt (fun _ _ => true) ⟨0, 0, 1, 1⟩
      (add Prod.snd (.leaf []) 0 ⟨0, 0, 1, 1⟩ ((7 : ℕ), ⟨0, 0, 1, 1⟩))
      ⟨10, 0, 1, 1⟩ = none := by
  have ht : add (Prod.snd : ℕ × Box ℝ → Box ℝ) (.leaf []) 0 ⟨0, 0, 1, 1⟩
      ((7 : ℕ), ⟨0, 0, 1, 1⟩) = .leaf [((7 : ℕ), ⟨0, 0, 1, 1⟩)] := by
    rw [add, if_pos (Or.inr (by simp [Threshold]))]
    rfl
  refine ⟨?_, ?_, ?_⟩
  · exact Reachable.addOp _ _ Reachable.init
      (by simp [Box.contains, Box.getRight, Box.getBottom])
  · rw [ht]
    simp [Node.allValues]
  · rw [ht]
    unfold findClosest
    rw [findClosestImpl]
    have hd : distance Real.sqrt (⟨10, 0, 1, 1⟩ : Box ℝ) ⟨0, 0, 1, 1⟩ = 9 := by
      norm_num [distance]
    rw [if_pos (by rw [hd]; norm_num)]

/-- C2 amended: on every reachable tree whose stored boxes are
well-formed, and for a well-formed search box, findClosest with the
always-true predicate (a) returns a stored item of minimum box-distance
to the search box PROVIDED some stored item has distance strictly below
the initial bound abs(world.width) + abs(world.height) (as is always the
case for a search box inside the world box), and among the items
attaining the minimum the first one encountered in traversal order wins:
the returned item occurs at a position of the traversal order before
which every item is strictly farther, because the incumbent is replaced
only on strictly smaller distance; and (b) if no stored item has
distance strictly below the initial bound, the incumbent never changes
and findClosest returns null even on a non-empty tree, as the
counterexample exhibits concretely. -/
theorem c2_findClosest_optimal {T : Type} (getBox : T → Box ℝ)
    {eqv : T → T → Bool} {world : Box ℝ} {n : Node T}
    (hww : 0 ≤ world.width) (hwh : 0 ≤ world.height)
    (hr : Reachable getBox eqv world n) (hbn : BoxesNonneg getBox n)
    {searchBox : Box ℝ} (hsw : 0 ≤ searchBox.width) (hsh : 0 ≤ searchBox.height) :
    ((∃ v0 ∈ n.allValues, distance Real.sqrt (getBox v0) searchBox <
        |world.width| + |world.height|) →
      ∃ v ∈ n.allValues,
        findClosest getBox Real.sqrt (fun _ _ => true) world n searchBox = some v ∧
        (∀ u ∈ n.allValues, distance Real.sqrt (getBox v) searchBox ≤
          distance Real.sqrt (getBox u) searchBox) ∧
        ∃ l1 l2, travOrder searchBox n world = l1 ++ v :: l2 ∧
          ∀ u ∈ l1, distance Real.sqrt (getBox v) searchBox <
            distance Real.sqrt (getBox u) searchBox) ∧
    ((∀ v ∈ n.allValues, |world.width| + |world.height| ≤
        distance Real.sqrt (getBox v) searchBox) →
      findClosest getBox Real.sqrt (fun _ _ => true) world n searchBox = none) := by
  have hInv := Reachable_Inv getBox eqv hww hwh hr
  obtain ⟨hle, hbound, hcases⟩ := findClosestImpl_good getBox (fun _ _ => true)
    searchBox hsw hsh n world (none, |world.width| + |world.height|) hww hwh hInv hbn
  constructor
  · intro hex
    obtain ⟨v0, hv0, hd0⟩ := hex
    have hv0t : v0 ∈ travOrder searchBox n world :=
      (travOrder_mem searchBox n world v0).2 hv0
    have hlt : (findClosestImpl getBox Real.sqrt (fun _ _ => true) searchBox
        (none, |world.width| + |world.height|) n world).2 <
        |world.width| + |world.height| :=
      lt_of_le_of_lt (hbound v0 hv0t rfl) hd0
    rcases hcases with hc | ⟨l1, v, l2, hs, _, he, hblt, hpre⟩
    · exfalso
      rw [hc] at hlt
      exact lt_irrefl _ hlt
    · have hvt : v ∈ travOrder searchBox n world := by
        rw [hs]
        exact List.mem_append.2 (Or.inr (List.mem_cons_self v l2))
      refine ⟨v, (travOrder_mem searchBox n world v).1 hvt, ?_, ?_, l1, l2, hs, ?_⟩
      · unfold findClosest
        rw [he]
      · intro u hu
        have hb := hbound u ((travOrder_mem searchBox n world u).2 hu) rfl
        rw [he] at hb
        exact hb
      · intro u hu
        have hp := hpre u hu rfl
        rw [he] at hp
        exact hp
  · intro hall
    rcases hcases with hc | ⟨l1, v, l2, hs, _, he, hblt, hpre⟩
    · unfold findClosest
      rw [hc]
    · exfalso
      have hvt : v ∈ travOrder searchBox n world := by
        rw [hs]
        exact List.mem_append.2 (Or.inr (List.mem_cons_self v l2))
      have hge := hall v ((travOrder_mem searchBox n world v).1 hvt)
      rw [he] at hblt
      exact absurd hblt (not_lt.2 hge)

theorem c2_findClosest_optimal_witness :
    (∃ v ∈ (add (Prod.snd : ℕ × Box ℝ → Box ℝ) (.leaf []) 0 ⟨0, 0, 2, 2⟩
        ((5 : ℕ), ⟨0, 0, 1, 1⟩)).allValues,
      findClosest Prod.snd Real.sqrt (fun _ _ => true) ⟨0, 0, 2, 2⟩
        (add Prod.snd (.leaf []) 0 ⟨0, 0, 2, 2⟩ ((5 : ℕ), ⟨0, 0, 1, 1⟩))
        ⟨0, 0, 1, 1⟩ = some v ∧
      (∀ u ∈ (add (Prod.snd : ℕ × Box ℝ → Box ℝ) (.leaf []) 0 ⟨0, 0, 2, 2⟩
        ((5 : ℕ), ⟨0, 0, 1, 1⟩)).allValues,
        distance Real.sqrt (Prod.snd v) ⟨0, 0, 1, 1⟩ ≤
          distance Real.sqrt (Prod.snd u) ⟨0, 0, 1, 1⟩) ∧
      ∃ l1 l2, travOrder (⟨0, 0, 1, 1⟩ : Box ℝ)
          (add Prod.snd (.leaf []) 0 ⟨0, 0, 2, 2⟩ ((5 : ℕ), ⟨0, 0, 1, 1⟩))
          ⟨0, 0, 2, 2⟩ = l1 ++ v :: l2 ∧
        ∀ u ∈ l1, distance Real.sqrt (Prod.snd v) ⟨0, 0, 1, 1⟩ <
          distance Real.sqrt (Prod.snd u) ⟨0, 0, 1, 1⟩) ∧
    findClosest (Prod.snd : ℕ × Box ℝ → Box ℝ) Real.sqrt (fun _ _ => true)
      ⟨0, 0, 1, 1⟩
      (add Prod.snd (.leaf []) 0 ⟨0, 0, 1, 1⟩ ((8 : ℕ), ⟨0, 0, 1, 1⟩))
      ⟨10, 0, 1, 1⟩ = none := by
  have ht : add (Prod.snd : ℕ × Box ℝ → Box ℝ) (.leaf []) 0 ⟨0, 0, 2, 2⟩
      ((5 : ℕ), ⟨0, 0, 1, 1⟩) = .leaf [((5 : ℕ), ⟨0, 0, 1, 1⟩)] := by
    rw [add, if_pos (Or.inr (by simp [Threshold]))]
    rfl
  have ht8 : add (Prod.snd : ℕ × Box ℝ → Box ℝ) (.leaf []) 0 ⟨0, 0, 1, 1⟩
      ((8 : ℕ), ⟨0, 0, 1, 1⟩) = .leaf [((8 : ℕ), ⟨0, 0, 1, 1⟩)] := by
    rw [add, if_pos (Or.inr (by simp [Threshold]))]
    rfl
  constructor
  · exact (@c2_findClosest_optimal _ Prod.snd (fun _ _ => true) _ _
      (by norm_num) (by norm_num)
      (Reachable.addOp _ _ Reachable.init
        (by simp [Box.contains, Box.getRight, Box.getBottom]))
      (by rw [ht]; intro x hx; simp only [Node.allValues, List.mem_singleton] at hx;
          subst hx; exact ⟨by norm_num, by norm_num⟩)
      _ (by norm_num) (by norm_num)).1
      ⟨((5 : ℕ), ⟨0, 0, 1, 1⟩), by rw [ht]; simp [Node.allValues],
        by norm_num [distance]⟩
  · exact (@c2_findClosest_optimal _ Prod.snd (fun _ _ => true) _ _
      (by norm_num) (by norm_num)
      (Reachable.addOp _ _ Reachable.init
        (by simp [Box.contains, Box.getRight, Box.getBottom]))
      (by rw [ht8]; intro x hx; simp only [Node.allValues, List.mem_singleton] at hx;
          subst hx; exact ⟨by norm_num, by norm_num⟩)
      _ (by norm_num) (by norm_num)).2
      (by rw [ht8]; intro x hx; simp only [Node.allValues, List.mem_singleton] at hx;
          subst hx; norm_num [distance])

end Quadtree
